import Mathlib

set_option linter.unusedSectionVars false

/-!
Verification of the optiRota algorithmic core (src/src/structures.py,
src/src/algorithms.py) via a shallow embedding in Lean.

Modelling conventions:
* Python floats are modelled as rationals (`ℚ`); `math.inf` is the `⊤` of
  `WithTop ℚ`.  Node identifiers are modelled as natural numbers.
* The binary heap used by `structures.PriorityQueue` is Python's stdlib
  `heapq` (array-backed min-heap over `(priority, value)` tuples compared
  lexicographically).  We embed its push/pop algorithms on `List` with the
  same index arithmetic; the sift loops are written with an explicit fuel
  argument that provably never runs out, so every definition is structural
  and executable.
* Loops bounded by `max_iterations` are embedded with the remaining
  iteration budget as structural fuel, while the `iteration_count` variable
  of the source is carried in the state record exactly as in the code.
-/

namespace OptiRota

/-- A heap entry, modelling the Python tuple `(priority, value)` stored by
`structures.PriorityQueue.insert`.  Priorities are floats (possibly `inf`),
values are node ids. -/
structure Ent where
  prio : WithTop ℚ
  node : ℕ
  deriving DecidableEq, Repr

instance : Inhabited Ent := ⟨⟨0, 0⟩⟩

/-- Python compares `(priority, value)` tuples lexicographically; this is the
order used by `heapq` on the queue's entries. -/
instance : LinearOrder Ent where
  le a b := a.prio < b.prio ∨ (a.prio = b.prio ∧ a.node ≤ b.node)
  le_refl a := Or.inr ⟨rfl, le_refl _⟩
  le_trans a b c hab hbc := by
    rcases hab with h1 | ⟨h1, h1n⟩ <;> rcases hbc with h2 | ⟨h2, h2n⟩
    · exact Or.inl (h1.trans h2)
    · exact Or.inl (h2 ▸ h1)
    · exact Or.inl (h1 ▸ h2)
    · exact Or.inr ⟨h1.trans h2, h1n.trans h2n⟩
  le_antisymm a b hab hba := by
    rcases hab with h1 | ⟨h1, h1n⟩ <;> rcases hba with h2 | ⟨h2, h2n⟩
    · exact absurd (h1.trans h2) (lt_irrefl _)
    · exact absurd h1 (h2 ▸ lt_irrefl _)
    · exact absurd h2 (h1 ▸ lt_irrefl _)
    · cases a; cases b; simp_all; omega
  le_total a b := by
    rcases lt_trichotomy a.prio b.prio with h | h | h
    · exact Or.inl (Or.inl h)
    · rcases le_total a.node b.node with hn | hn
      · exact Or.inl (Or.inr ⟨h, hn⟩)
      · exact Or.inr (Or.inr ⟨h.symm, hn⟩)
    · exact Or.inr (Or.inl h)
  decidableLE a b := inferInstanceAs (Decidable (_ ∨ _))

theorem Ent.le_def (a b : Ent) :
    a ≤ b ↔ a.prio < b.prio ∨ (a.prio = b.prio ∧ a.node ≤ b.node) := Iff.rfl

/-- The priority of a smaller entry is no larger. -/
theorem Ent.prio_le_of_le {a b : Ent} (h : a ≤ b) : a.prio ≤ b.prio := by
  rcases h with h | ⟨h, _⟩
  · exact le_of_lt h
  · exact le_of_eq h

section Heap

variable {α : Type} [LinearOrder α] [Inhabited α]

/-- Indexing into the heap array; every access made by the source is in
bounds, so the default value is never observable. -/
def lget (l : List α) (i : ℕ) : α := l.getD i default

/-- Swap two cells of the heap array. -/
def lswap (l : List α) (i j : ℕ) : List α := (l.set i (lget l j)).set j (lget l i)

/-- The bubble-up loop of `heapq._siftdown(heap, startpos, pos)`: move the
item at `pos` towards the root while it is smaller than its parent.  The
fuel starts at `pos` and never runs out because the position strictly
decreases. -/
def siftdown (s : ℕ) : ℕ → List α → ℕ → List α
  | 0, h, _ => h
  | fuel + 1, h, pos =>
    if s < pos then
      let pp := (pos - 1) / 2
      if lget h pos < lget h pp then siftdown s fuel (lswap h pos pp) pp else h
    else h

/-- The sift-down loop of `heapq._siftup(heap, pos)`: descend along the
smaller child (Python prefers the right child on ties) while the child is
smaller than the item.  Produces the same array as CPython's
move-to-leaf-then-bubble-up formulation, since on ties the cells that differ
hold equal values.  Fuel starts at the array length. -/
def siftup : ℕ → List α → ℕ → List α
  | 0, h, _ => h
  | fuel + 1, h, pos =>
    let c1 := 2 * pos + 1
    if c1 < h.length then
      let c := if 2 * pos + 2 < h.length ∧ ¬ lget h c1 < lget h (2 * pos + 2)
        then 2 * pos + 2 else c1
      if lget h c < lget h pos then siftup fuel (lswap h pos c) c else h
    else h

/-- `heapq.heappush`: append the item and bubble it up. -/
def heappush (h : List α) (x : α) : List α :=
  siftdown 0 h.length (h ++ [x]) h.length

/-- `heapq.heappop`: pop the last cell; if the heap is still nonempty, move
the last element to the root and sift it down, returning the old root.
Called on an empty heap only behind an emptiness guard (Python would raise),
so the `[]` branch is unobservable. -/
def heappop : List α → α × List α
  | [] => (default, [])
  | [x] => (x, [])
  | h =>
    let last := lget h (h.length - 1)
    let rest := h.dropLast
    (lget rest 0, siftup rest.length (rest.set 0 last) 0)

/-- The min-heap property checked by
`structures.PriorityQueue._verify_heap_property`: each parent is `≤` both
children. -/
def HeapProp (h : List α) : Prop :=
  ∀ i j : ℕ, (j = 2 * i + 1 ∨ j = 2 * i + 2) → j < h.length → lget h i ≤ lget h j

theorem lget_eq_getElem {l : List α} {i : ℕ} (h : i < l.length) :
    lget l i = l[i] := List.getD_eq_getElem l default h

theorem lget_set_self {l : List α} {i : ℕ} {v : α} (h : i < l.length) :
    lget (l.set i v) i = v := by
  rw [lget, List.getD_eq_getElem _ _ (by simpa using h)]
  exact List.getElem_set_self (by simpa using h)

theorem lget_set_ne {l : List α} {i j : ℕ} {v : α} (hne : i ≠ j) :
    lget (l.set i v) j = lget l j := by
  unfold lget
  rcases lt_or_le j l.length with hj | hj
  · rw [List.getD_eq_getElem _ _ (by simpa using hj), List.getD_eq_getElem _ _ hj]
    exact List.getElem_set_ne hne _
  · rw [List.getD_eq_default _ _ (by simpa using hj), List.getD_eq_default _ _ hj]

@[simp] theorem length_lswap (l : List α) (i j : ℕ) :
    (lswap l i j).length = l.length := by simp [lswap]

theorem lget_lswap_snd {l : List α} {i j : ℕ} (hj : j < l.length) :
    lget (lswap l i j) j = lget l i := by
  rw [lswap, lget_set_self (by simpa using hj)]

theorem lget_lswap_fst {l : List α} {i j : ℕ} (hi : i < l.length) :
    lget (lswap l i j) i = lget l j := by
  rcases eq_or_ne i j with rfl | hne
  · rw [lswap, lget_set_self (by simpa using hi)]
  · rw [lswap, lget_set_ne (Ne.symm hne), lget_set_self hi]

theorem lget_lswap_other {l : List α} {i j k : ℕ} (hik : i ≠ k) (hjk : j ≠ k) :
    lget (lswap l i j) k = lget l k := by
  rw [lswap, lget_set_ne hjk, lget_set_ne hik]

theorem count_set_eq (l : List α) (i : ℕ) (v a : α) (hi : i < l.length) :
    List.count a (l.set i v) + (if l[i] = a then 1 else 0)
      = List.count a l + (if v = a then 1 else 0) := by
  rw [List.count_set v a l i hi]
  have hc : (if (l[i] == a) = true then 1 else 0) ≤ List.count a l := by
    split
    · rename_i hb
      have hba : l[i] = a := by simpa using hb
      have hm : a ∈ l := hba ▸ l.getElem_mem hi
      have := List.count_pos_iff.mpr hm
      omega
    · omega
  simp only [beq_iff_eq] at *
  split_ifs at hc ⊢ <;> omega

theorem lswap_perm (l : List α) {i j : ℕ} (hi : i < l.length) (hj : j < l.length) :
    List.Perm (lswap l i j) l := by
  rw [List.perm_iff_count]
  intro a
  have hj2 : j < (l.set i (lget l j)).length := by simpa using hj
  have h1 := count_set_eq (l.set i (lget l j)) j (lget l i) a hj2
  have h2 := count_set_eq l i (lget l j) a hi
  unfold lswap
  rcases eq_or_ne i j with rfl | hne
  · have e1 : (l.set i (lget l i))[i] = lget l i := List.getElem_set_self hj2
    rw [e1] at h1
    unfold lget at *
    rw [List.getD_eq_getElem _ _ hi] at *
    split_ifs at * <;> omega
  · have e1 : (l.set i (lget l j))[j] = l[j] := List.getElem_set_ne hne hj2
    rw [e1] at h1
    unfold lget at *
    rw [List.getD_eq_getElem _ _ hi, List.getD_eq_getElem _ _ hj] at *
    split_ifs at * <;> omega

theorem lget_append_lt {l : List α} {x : α} {k : ℕ} (hk : k < l.length) :
    lget (l ++ [x]) k = lget l k := by
  rw [lget, lget, List.getD_eq_getElem _ _ (by simp; omega), List.getD_eq_getElem _ _ hk]
  exact List.getElem_append_left hk

theorem lget_dropLast {l : List α} {k : ℕ} (hk : k < l.length - 1) :
    lget l.dropLast k = lget l k := by
  rw [lget, lget, List.getD_eq_getElem _ _ (by simpa using hk),
    List.getD_eq_getElem _ _ (by omega)]
  exact List.getElem_dropLast l k (by simpa using hk)

/-- State of the bubble-up loop: the heap relation may fail only on the edge
into `pos`, and the parent of `pos` already dominates the children of
`pos`. -/
def UpInv (h : List α) (pos : ℕ) : Prop :=
  (∀ i j : ℕ, (j = 2 * i + 1 ∨ j = 2 * i + 2) → j < h.length → j ≠ pos →
      lget h i ≤ lget h j) ∧
  (∀ j : ℕ, (j = 2 * pos + 1 ∨ j = 2 * pos + 2) → j < h.length → 0 < pos →
      lget h ((pos - 1) / 2) ≤ lget h j)

/-- State of the sift-down loop: the heap relation may fail only on edges
out of `pos`, and the parent of `pos` already dominates the children of
`pos`. -/
def DownInv (h : List α) (pos : ℕ) : Prop :=
  (∀ i j : ℕ, (j = 2 * i + 1 ∨ j = 2 * i + 2) → j < h.length → i ≠ pos →
      lget h i ≤ lget h j) ∧
  (∀ j : ℕ, (j = 2 * pos + 1 ∨ j = 2 * pos + 2) → j < h.length → 0 < pos →
      lget h ((pos - 1) / 2) ≤ lget h j)

theorem siftdown_heapProp : ∀ (fuel : ℕ) (h : List α) (pos : ℕ),
    pos ≤ fuel → pos < h.length → UpInv h pos → HeapProp (siftdown 0 fuel h pos)
  | 0, h, pos, hfuel, _, hinv => by
    intro i j hrel hj
    exact hinv.1 i j hrel hj (by omega)
  | fuel + 1, h, pos, hfuel, hpos, hinv => by
    rw [siftdown]
    by_cases h0 : 0 < pos
    · simp only [h0, if_true]
      set pp := (pos - 1) / 2 with hpp
      have hchild : pos = 2 * pp + 1 ∨ pos = 2 * pp + 2 := by omega
      have hpplt : pp < pos := by omega
      by_cases hlt : lget h pos < lget h pp
      · simp only [hlt, if_true]
        apply siftdown_heapProp fuel _ pp (by omega) (by simp; omega)
        have epos : lget (lswap h pos pp) pos = lget h pp := lget_lswap_fst hpos
        have epp : lget (lswap h pos pp) pp = lget h pos := lget_lswap_snd (by omega)
        have eoth : ∀ k, k ≠ pos → k ≠ pp → lget (lswap h pos pp) k = lget h k :=
          fun k h1 h2 => lget_lswap_other (Ne.symm h1) (Ne.symm h2)
        constructor
        · intro i j hrel hj hjne
          have hjlen : j < h.length := by simpa using hj
          rcases eq_or_ne i pp with rfl | hipp
          · rcases eq_or_ne j pos with rfl | hjpos
            · rw [epp, epos]
              exact le_of_lt hlt
            · rw [epp, eoth j hjpos hjne]
              exact le_of_lt (lt_of_lt_of_le hlt (hinv.1 pp j hrel hjlen hjpos))
          · rcases eq_or_ne i pos with heq | hipos
            · have hjne2 : j ≠ pos := by omega
              rw [heq, epos, eoth j hjne2 hjne]
              exact hinv.2 j (heq ▸ hrel) hjlen h0
            · rcases eq_or_ne j pos with heq | hjpos
              · exact absurd (by omega : i = pp) hipp
              · rw [eoth i hipos hipp, eoth j hjpos hjne]
                exact hinv.1 i j hrel hjlen hjpos
        · intro j hrel hj hpp0
          have hjlen : j < h.length := by simpa using hj
          set pp2 := (pp - 1) / 2 with hpp2
          have hch2 : pp = 2 * pp2 + 1 ∨ pp = 2 * pp2 + 2 := by omega
          have hpp2ne : pp2 ≠ pos := by omega
          have hpp2ne2 : pp2 ≠ pp := by omega
          have hbase : lget h pp2 ≤ lget h pp :=
            hinv.1 pp2 pp hch2 (by omega) (by omega)
          rw [eoth pp2 hpp2ne hpp2ne2]
          rcases eq_or_ne j pos with rfl | hjpos
          · rw [epos]
            exact hbase
          · rw [eoth j hjpos (by omega)]
            exact hbase.trans (hinv.1 pp j hrel hjlen hjpos)
      · simp only [hlt, if_false]
        intro i j hrel hj
        rcases eq_or_ne j pos with rfl | hjpos
        · have hieq : i = pp := by omega
          subst hieq
          exact le_of_not_lt hlt
        · exact hinv.1 i j hrel hj hjpos
    · simp only [h0, if_false]
      intro i j hrel hj
      exact hinv.1 i j hrel hj (by omega)

theorem siftup_heapProp : ∀ (fuel : ℕ) (h : List α) (pos : ℕ),
    h.length ≤ fuel + pos + 1 → DownInv h pos → HeapProp (siftup fuel h pos)
  | 0, h, pos, hfuel, hinv => by
    intro i j hrel hj
    have hj' : j < h.length := hj
    rcases eq_or_ne i pos with heq | hne
    · exact absurd hj' (by omega)
    · exact hinv.1 i j hrel hj' hne
  | fuel + 1, h, pos, hfuel, hinv => by
    rw [siftup]
    by_cases hc1 : 2 * pos + 1 < h.length
    · simp only [hc1, if_true]
      set c := if 2 * pos + 2 < h.length ∧ ¬ lget h (2 * pos + 1) < lget h (2 * pos + 2)
        then 2 * pos + 2 else 2 * pos + 1 with hc
      have hcchild : c = 2 * pos + 1 ∨ c = 2 * pos + 2 := by
        rw [hc]; split <;> simp
      have hclen : c < h.length := by
        rw [hc]; split
        · rename_i hx; exact hx.1
        · exact hc1
      have hcpos : pos < c := by omega
      have hmin : ∀ j : ℕ, (j = 2 * pos + 1 ∨ j = 2 * pos + 2) → j < h.length →
          lget h c ≤ lget h j := by
        intro j hj hjlen
        rw [hc]
        split
        · rename_i hx
          rcases hj with rfl | rfl
          · exact le_of_not_lt hx.2
          · exact le_refl _
        · rename_i hx
          rw [Classical.not_and_iff_or_not_not, not_not] at hx
          rcases hj with rfl | rfl
          · exact le_refl _
          · rcases hx with hx | hx
            · omega
            · exact le_of_lt hx
      by_cases hlt : lget h c < lget h pos
      · simp only [hlt, if_true]
        apply siftup_heapProp fuel _ c (by simp; omega)
        have epos : lget (lswap h pos c) pos = lget h c := lget_lswap_fst (by omega)
        have ec : lget (lswap h pos c) c = lget h pos := lget_lswap_snd hclen
        have eoth : ∀ k, k ≠ pos → k ≠ c → lget (lswap h pos c) k = lget h k :=
          fun k h1 h2 => lget_lswap_other (Ne.symm h1) (Ne.symm h2)
        constructor
        · intro i j hrel hj hine
          have hjlen : j < h.length := by simpa using hj
          rcases eq_or_ne i pos with heq | hipos
          · rcases eq_or_ne j c with heq2 | hjc
            · rw [heq, heq2, epos, ec]
              exact le_of_lt hlt
            · rw [heq, epos, eoth j (by omega) hjc]
              exact hmin j (heq ▸ hrel) hjlen
          · rcases eq_or_ne j pos with heq | hjpos
            · have h0 : 0 < pos := by omega
              have hieq : i = (pos - 1) / 2 := by omega
              rw [heq, eoth i hipos (by omega), epos, hieq]
              exact hinv.2 c hcchild hclen h0
            · rcases eq_or_ne j c with heq | hjc
              · exact absurd (by omega : i = pos) hipos
              · rw [eoth i hipos hine, eoth j hjpos hjc]
                exact hinv.1 i j hrel hjlen hipos
        · intro j hrel hj _
          have hjlen : j < h.length := by simpa using hj
          have hparent : (c - 1) / 2 = pos := by omega
          rw [hparent]
          have ec2 : lget (lswap h pos c) pos = lget h c := lget_lswap_fst (by omega)
          have hjc : j ≠ c := by omega
          have hjpos : j ≠ pos := by omega
          rw [ec2, lget_lswap_other (Ne.symm hjpos) (Ne.symm hjc)]
          exact hinv.1 c j hrel hjlen (by omega)
      · simp only [hlt, if_false]
        intro i j hrel hj
        rcases eq_or_ne i pos with rfl | hipos
        · exact le_trans (le_of_not_lt hlt) (hmin j hrel hj)
        · exact hinv.1 i j hrel hj hipos
    · simp only [hc1, if_false]
      intro i j hrel hj
      rcases eq_or_ne i pos with heq | hipos
      · exact absurd hj (by omega)
      · exact hinv.1 i j hrel hj hipos

theorem siftdown_perm : ∀ (fuel : ℕ) (h : List α) (pos : ℕ),
    pos < h.length → List.Perm (siftdown 0 fuel h pos) h
  | 0, h, pos, _ => List.Perm.refl h
  | fuel + 1, h, pos, hpos => by
    rw [siftdown]
    by_cases h0 : 0 < pos
    · simp only [h0, if_true]
      by_cases hlt : lget h pos < lget h ((pos - 1) / 2)
      · simp only [hlt, if_true]
        exact (siftdown_perm fuel _ _ (by simp; omega)).trans
          (lswap_perm h hpos (by omega))
      · simp [hlt]
    · simp [h0]

theorem siftup_perm : ∀ (fuel : ℕ) (h : List α) (pos : ℕ),
    List.Perm (siftup fuel h pos) h
  | 0, h, pos => List.Perm.refl h
  | fuel + 1, h, pos => by
    rw [siftup]
    by_cases hc1 : 2 * pos + 1 < h.length
    · simp only [hc1, if_true]
      set c := if 2 * pos + 2 < h.length ∧ ¬ lget h (2 * pos + 1) < lget h (2 * pos + 2)
        then 2 * pos + 2 else 2 * pos + 1 with hc
      have hclen : c < h.length := by
        rw [hc]; split
        · rename_i hx; exact hx.1
        · exact hc1
      by_cases hlt : lget h c < lget h pos
      · simp only [hlt, if_true]
        exact (siftup_perm fuel _ _).trans (lswap_perm h (by omega) hclen)
      · simp [hlt]
    · simp [hc1]

theorem heappush_heapProp {h : List α} {x : α} (hh : HeapProp h) :
    HeapProp (heappush h x) := by
  apply siftdown_heapProp h.length (h ++ [x]) h.length (le_refl _) (by simp)
  constructor
  · intro i j hrel hj hjne
    have hjl : j < h.length := by simp at hj; omega
    have hil : i < h.length := by omega
    rw [lget_append_lt hjl, lget_append_lt hil]
    exact hh i j hrel hjl
  · intro j hrel hj _
    simp at hj
    omega

theorem heappush_perm (h : List α) (x : α) :
    List.Perm (heappush h x) (x :: h) := by
  exact (siftdown_perm h.length (h ++ [x]) h.length (by simp)).trans
    (List.perm_append_singleton x h)

theorem heapProp_root_le {h : List α} (hh : HeapProp h) :
    ∀ i : ℕ, i < h.length → lget h 0 ≤ lget h i := by
  intro i
  induction i using Nat.strong_induction_on with
  | _ i ih =>
    intro hi
    rcases Nat.eq_zero_or_pos i with rfl | h0
    · exact le_refl _
    · have hrel : i = 2 * ((i - 1) / 2) + 1 ∨ i = 2 * ((i - 1) / 2) + 2 := by omega
      exact (ih ((i - 1) / 2) (by omega) (by omega)).trans (hh _ i hrel hi)

theorem heapProp_root_le_mem {h : List α} (hh : HeapProp h) {x : α} (hx : x ∈ h) :
    lget h 0 ≤ x := by
  obtain ⟨i, hi, rfl⟩ := List.mem_iff_getElem.mp hx
  rw [← lget_eq_getElem hi]
  exact heapProp_root_le hh i hi

theorem heappop_fst {h : List α} (hne : h ≠ []) : (heappop h).1 = lget h 0 := by
  match h with
  | [x] => simp [heappop, lget]
  | a :: b :: t => simp [heappop, lget]

theorem heappop_perm {h : List α} (hne : h ≠ []) :
    List.Perm (heappop h).2 h.tail := by
  match h with
  | [x] => simp [heappop]
  | a :: b :: t =>
    show List.Perm (siftup _ _ 0) _
    refine (siftup_perm _ _ _).trans ?_
    have hbt : (b :: t) ≠ [] := by simp
    have hrest : (a :: b :: t).dropLast = a :: (b :: t).dropLast := by simp
    have hlast : lget (a :: b :: t) ((a :: b :: t).length - 1)
        = (b :: t).getLast hbt := by
      rw [lget, List.getD_eq_getElem _ _ (by simp)]
      rw [List.getLast_eq_getElem]
      simp
    rw [hrest, hlast]
    show List.Perm ((b :: t).getLast hbt :: (b :: t).dropLast) (b :: t)
    have hsplit : (b :: t).dropLast ++ [(b :: t).getLast hbt] = b :: t :=
      List.dropLast_append_getLast hbt
    refine ((List.perm_append_singleton ((b :: t).getLast hbt)
      ((b :: t).dropLast)).symm).trans ?_
    rw [hsplit]

theorem heappop_heapProp {h : List α} (hh : HeapProp h) :
    HeapProp (heappop h).2 := by
  match h with
  | [] => intro i j hrel hj; simp [heappop] at hj
  | [x] => intro i j hrel hj; simp [heappop] at hj
  | a :: b :: t =>
    show HeapProp (siftup ((a :: b :: t).dropLast.length)
      ((a :: b :: t).dropLast.set 0 (lget (a :: b :: t) ((a :: b :: t).length - 1))) 0)
    refine siftup_heapProp _ _ 0 (by simp) ⟨?_, ?_⟩
    · intro i j hrel hj hine
      have hj0 : j ≠ 0 := by omega
      have hjlen : j < t.length + 1 := by simpa using hj
      rw [lget_set_ne (Ne.symm hine), lget_set_ne (Ne.symm hj0),
        lget_dropLast (by simp; omega), lget_dropLast (by simp; omega)]
      exact hh i j hrel (by simp; omega)
    · intro j hrel hj h0
      omega

end Heap

/-! ## `structures.PriorityQueue` -/

/-- The error raised by `PriorityQueue.extract_min` on an empty queue
(`IndexError` in the source; the spec calls it `EmptyQueue`). -/
inductive PQError where
  | emptyQueue
  deriving DecidableEq, Repr

/-- `structures.PriorityQueue`: a list of `(priority, value)` tuples kept as
a binary min-heap by `heapq`. -/
structure PriorityQueue where
  heap : List Ent
  deriving DecidableEq, Repr

namespace PriorityQueue

/-- `PriorityQueue()`. -/
def mk0 : PriorityQueue := ⟨[]⟩

/-- `insert(value, priority)`: the numeric type guard always passes here
because priorities are numbers by type; then `heapq.heappush`. -/
def insert (q : PriorityQueue) (value : ℕ) (priority : WithTop ℚ) : PriorityQueue :=
  ⟨heappush q.heap ⟨priority, value⟩⟩

/-- `extract_min()`: raises on an empty queue, otherwise `heapq.heappop`
and return the popped value (the priority is discarded). -/
def extract_min (q : PriorityQueue) : Except PQError (ℕ × PriorityQueue) :=
  if q.heap = [] then .error .emptyQueue
  else
    let r := heappop q.heap
    .ok (r.1.node, ⟨r.2⟩)

/-- `is_empty()`. -/
def is_empty (q : PriorityQueue) : Bool := q.heap.length = 0

/-- `peek()`: the value of `heap[0]`, or `None`. -/
def peek (q : PriorityQueue) : Option ℕ :=
  match q.heap with
  | [] => none
  | e :: _ => some e.node

/-- `size()`. -/
def size (q : PriorityQueue) : ℕ := q.heap.length

/-- Queue states reachable through the public interface. -/
inductive Reachable : PriorityQueue → Prop where
  | mk0 : Reachable mk0
  | insert {q : PriorityQueue} (v : ℕ) (p : WithTop ℚ) :
      Reachable q → Reachable (q.insert v p)
  | extract {q q' : PriorityQueue} {v : ℕ} :
      Reachable q → q.extract_min = .ok (v, q') → Reachable q'

/-- Every reachable queue satisfies the heap invariant that
`_verify_heap_property` checks after each operation. -/
theorem Reachable.heapProp {q : PriorityQueue} (h : Reachable q) : HeapProp q.heap := by
  induction h with
  | mk0 => intro i j hrel hj; simp [PriorityQueue.mk0] at hj
  | insert v p _ ih => exact heappush_heapProp ih
  | @extract q q' v _ hex ih =>
    rw [extract_min] at hex
    split at hex
    · exact absurd hex (by simp)
    · simp only [Except.ok.injEq, Prod.mk.injEq] at hex
      have : q'.heap = (heappop q.heap).2 := by rw [← hex.2]
      rw [this]
      exact heappop_heapProp ih

/-- On a nonempty heap-invariant queue, `extract_min` succeeds and returns
the value of an entry whose priority is minimal among the current entries;
the remaining entries are the old ones minus that entry. -/
theorem extract_min_spec {q : PriorityQueue} (hq : HeapProp q.heap)
    (hne : q.heap ≠ []) :
    ∃ e : Ent, ∃ q2 : PriorityQueue,
      q.extract_min = .ok (e.node, q2) ∧ e ∈ q.heap ∧
      (∀ e2 ∈ q.heap, e ≤ e2) ∧ List.Perm q2.heap q.heap.tail ∧
      HeapProp q2.heap ∧ (∀ x ∈ q.heap, x ≠ e → x ∈ q2.heap) := by
  refine ⟨lget q.heap 0, ⟨(heappop q.heap).2⟩, ?_, ?_, ?_, ?_, ?_, ?_⟩
  · rw [extract_min]
    simp only [hne, if_false]
    rw [heappop_fst hne]
  · have h0 : 0 < q.heap.length := List.length_pos.mpr hne
    rw [lget_eq_getElem h0]
    exact q.heap.getElem_mem h0
  · intro e2 he2
    exact heapProp_root_le_mem hq he2
  · exact heappop_perm hne
  · exact heappop_heapProp hq
  · intro x hx hxe
    match q, hne, hx, hxe with
    | ⟨a :: t⟩, _, hx, hxe =>
      have ha : lget (a :: t) 0 = a := by simp [lget]
      rw [ha] at hxe
      have hxt : x ∈ t := by
        rcases List.mem_cons.mp hx with rfl | h2
        · exact absurd rfl hxe
        · exact h2
      exact (heappop_perm (by simp)).mem_iff.mpr hxt

end PriorityQueue


/-! ## Graph model and `algorithms.dijkstra` -/

/-- Errors raised by the shortest-path kernel: `ValueError` for unknown
nodes, `RuntimeError` for the iteration cap and for unreachable
destinations, and `ValueError` from path reconstruction
(spec names: `UnknownNode`, `IterationLimitExceeded`, `NoPathExists`,
`BrokenChain`). -/
inductive AlgError where
  | unknownNode
  | iterLimit
  | noPath
  | brokenChain
  deriving DecidableEq, Repr

/-- The directed graph consumed by the kernel (a networkx `DiGraph`):
a node list, per-node successor enumeration, and an optional `weight`
attribute per edge. -/
structure Graph where
  nodes : List ℕ
  adj : ℕ → List ℕ
  wAttr : ℕ → ℕ → Option ℚ

/-- The edge weight read by the kernel:
`graph[current][neighbor].get(\'weight\', 1.0)`. -/
def edgeWeight (g : Graph) (u v : ℕ) : ℚ := (g.wAttr u v).getD 1

/-- Costed reachability: `Reaches g u v c` holds when the graph has a
directed walk from `u` to `v` whose edge weights sum to `c`. -/
inductive Reaches (g : Graph) : ℕ → ℕ → ℚ → Prop where
  | refl {u : ℕ} (hu : u ∈ g.nodes) : Reaches g u u 0
  | step {u v w : ℕ} {c : ℚ} (h : Reaches g u v c) (hw : w ∈ g.adj v) :
      Reaches g u w (c + edgeWeight g v w)

/-- `c` is the reference single-source shortest-path distance from `s` to
`e`: attained by some walk, and a lower bound of all walk costs. -/
def IsShortestDist (g : Graph) (s e : ℕ) (c : ℚ) : Prop :=
  Reaches g s e c ∧ ∀ c2 : ℚ, Reaches g s e c2 → c ≤ c2

/-- State of the main loop of `dijkstra`. -/
structure DState where
  dist : ℕ → WithTop ℚ
  pred : ℕ → Option ℕ
  visited : List ℕ
  pq : PriorityQueue
  iters : ℕ

/-- The neighbor-relaxation loop of `dijkstra`: skip visited neighbors,
compute the candidate distance and, on strict improvement, update distance
and predecessor and push the neighbor. -/
def relaxNeighbors (g : Graph) (u : ℕ) : List ℕ → DState → DState
  | [], st => st
  | v :: rest, st =>
    if v ∈ st.visited then relaxNeighbors g u rest st
    else
      let nd := st.dist u + (edgeWeight g u v : WithTop ℚ)
      if nd < st.dist v then
        relaxNeighbors g u rest
          { st with
            dist := Function.update st.dist v nd
            pred := Function.update st.pred v (some u)
            pq := st.pq.insert v nd }
      else relaxNeighbors g u rest st

/-- The main loop of `dijkstra`.  The fuel is the remaining iteration
budget `max_iterations - iteration_count`; the loop also stops when the
queue empties, and breaks after marking `end` visited. -/
def dloop (g : Graph) (endv : Option ℕ) : ℕ → DState → DState
  | 0, st => st
  | fuel + 1, st =>
    if st.pq.is_empty then st
    else
      match st.pq.extract_min with
      | .error _ => st
      | .ok (u, pq2) =>
        let st1 : DState := { st with pq := pq2, iters := st.iters + 1 }
        if u ∈ st1.visited then dloop g endv fuel st1
        else
          let st2 : DState := { st1 with visited := u :: st1.visited }
          if some u = endv then st2
          else dloop g endv fuel (relaxNeighbors g u (g.adj u) st2)

/-- The state of `dijkstra` right before the main loop. -/
def dijkstraInit (s : ℕ) : DState where
  dist := Function.update (fun _ => (⊤ : WithTop ℚ)) s 0
  pred := fun _ => none
  visited := []
  pq := PriorityQueue.mk0.insert s 0
  iters := 0

/-- The state of `dijkstra` after the main loop. -/
def dloopFinal (g : Graph) (s : ℕ) (endv : Option ℕ) (maxIter : ℕ) : DState :=
  dloop g endv maxIter (dijkstraInit s)

/-- The stack walk of `structures.reconstruct_path_with_stack`: follow
predecessor links from `end`, pushing nodes, stopping at `start`, at a
missing predecessor, or when the hop guard is exceeded.  The returned list
is the stack from top to bottom, i.e. the order the final pops produce.
The fuel is the number of loop iterations the `steps <= max_hops` guard
allows. -/
def reconWalk (pred : ℕ → Option ℕ) (start : ℕ) : ℕ → Option ℕ → List ℕ → List ℕ
  | 0, _, stack => stack
  | fuel + 1, cur, stack =>
    match cur with
    | none => stack
    | some c =>
      if c = start then c :: stack
      else reconWalk pred start fuel (pred c) (c :: stack)

/-- `structures.reconstruct_path_with_stack` (and its public wrapper
`reconstruct_path`, which only re-labels an impossible stack error):
`numNodes` is `len(predecessors)`, the number of graph nodes. -/
def reconstruct_path (pred : ℕ → Option ℕ) (numNodes : ℕ) (start endv : ℕ) :
    Except AlgError (List ℕ) :=
  let stack := reconWalk pred start (numNodes + 2) (some endv) []
  match stack with
  | [] => .error .brokenChain
  | top :: rest => if top = start then .ok (top :: rest) else .error .brokenChain

/-- The record returned by a successful `dijkstra` call with an `end`
node.  `computation`-irrelevant bookkeeping fields are carried verbatim. -/
structure DijResult where
  distance : ℚ
  path : List ℕ
  distances : ℕ → WithTop ℚ
  predecessors : ℕ → Option ℕ
  iterations : ℕ
  nodes_visited : ℕ

/-- `dijkstra` returns the full distance map when `end is None` and a
result record otherwise. -/
inductive DijOut where
  | distMap (d : ℕ → WithTop ℚ)
  | res (r : DijResult)

/-- `algorithms.dijkstra(graph, start, end, max_iterations)`. -/
def dijkstra (g : Graph) (s : ℕ) (endv : Option ℕ) (maxIter : ℕ) :
    Except AlgError DijOut :=
  if s ∉ g.nodes then .error .unknownNode
  else if (match endv with | some e => decide (e ∉ g.nodes) | none => false) then
    .error .unknownNode
  else
    let st := dloopFinal g s endv maxIter
    if maxIter ≤ st.iters then .error .iterLimit
    else
      match endv with
      | none => .ok (.distMap st.dist)
      | some e =>
        match hde : st.dist e with
        | ⊤ => .error .noPath
        | (c : ℚ) =>
          match reconstruct_path st.pred g.nodes.dedup.length s e with
          | .error er => .error er
          | .ok path =>
            .ok (.res
              { distance := c
                path := path
                distances := st.dist
                predecessors := st.pred
                iterations := st.iters
                nodes_visited := st.visited.length })

/-! ## `algorithms.a_star`

The heuristic `euclidean_distance` computes a planar straight-line
distance with `math.sqrt`; its float result is some rational number
depending only on the two nodes' coordinates, so it is modelled as an
arbitrary function `eu : ℕ → ℕ → ℚ` of the two node ids. -/

/-- State of the main loop of `a_star`. -/
structure AState where
  g_costs : ℕ → WithTop ℚ
  f_costs : ℕ → WithTop ℚ
  pred : ℕ → Option ℕ
  visited : List ℕ
  evaluated : List ℕ
  openSet : PriorityQueue
  iters : ℕ

/-- The neighbor-evaluation loop of `a_star`: on strict `g`-improvement,
update `g`, predecessor and `f`, and push the neighbor with priority
`f`. -/
def aStarRelax (g : Graph) (eu : ℕ → ℕ → ℚ) (endv u : ℕ) :
    List ℕ → AState → AState
  | [], st => st
  | v :: rest, st =>
    if v ∈ st.visited then aStarRelax g eu endv u rest st
    else
      let tg := st.g_costs u + (edgeWeight g u v : WithTop ℚ)
      if tg < st.g_costs v then
        let fv := tg + (eu v endv : WithTop ℚ)
        aStarRelax g eu endv u rest
          { st with
            g_costs := Function.update st.g_costs v tg
            pred := Function.update st.pred v (some u)
            f_costs := Function.update st.f_costs v fv
            openSet := st.openSet.insert v fv
            evaluated := if v ∈ st.evaluated then st.evaluated else v :: st.evaluated }
      else aStarRelax g eu endv u rest st

/-- The main loop of `a_star`. -/
def aloop (g : Graph) (eu : ℕ → ℕ → ℚ) (endv : ℕ) : ℕ → AState → AState
  | 0, st => st
  | fuel + 1, st =>
    if st.openSet.is_empty then st
    else
      match st.openSet.extract_min with
      | .error _ => st
      | .ok (u, pq2) =>
        let st1 : AState := { st with openSet := pq2, iters := st.iters + 1 }
        if u ∈ st1.visited then aloop g eu endv fuel st1
        else
          let st2 : AState := { st1 with visited := u :: st1.visited }
          if u = endv then st2
          else aloop g eu endv fuel (aStarRelax g eu endv u (g.adj u) st2)

/-- The state of `a_star` right before the main loop. -/
def aStarInit (eu : ℕ → ℕ → ℚ) (s endv : ℕ) : AState where
  g_costs := Function.update (fun _ => (⊤ : WithTop ℚ)) s 0
  f_costs := Function.update (fun _ => (⊤ : WithTop ℚ)) s ((0 : WithTop ℚ) + (eu s endv : WithTop ℚ))
  pred := fun _ => none
  visited := []
  evaluated := [s]
  openSet := PriorityQueue.mk0.insert s ((0 : WithTop ℚ) + (eu s endv : WithTop ℚ))
  iters := 0

/-- The state of `a_star` after the main loop. -/
def aloopFinal (g : Graph) (eu : ℕ → ℕ → ℚ) (s endv : ℕ) (maxIter : ℕ) : AState :=
  aloop g eu endv maxIter (aStarInit eu s endv)

/-- The record returned by a successful `a_star` call. -/
structure AStarResult where
  distance : ℚ
  path : List ℕ
  g_costs : ℕ → WithTop ℚ
  f_costs : ℕ → WithTop ℚ
  predecessors : ℕ → Option ℕ
  iterations : ℕ
  nodes_visited : ℕ
  nodes_evaluated : ℕ

/-- `algorithms.a_star(graph, start, end, max_iterations)`. -/
def a_star (g : Graph) (eu : ℕ → ℕ → ℚ) (s endv : ℕ) (maxIter : ℕ) :
    Except AlgError AStarResult :=
  if s ∉ g.nodes then .error .unknownNode
  else if endv ∉ g.nodes then .error .unknownNode
  else
    let st := aloopFinal g eu s endv maxIter
    if maxIter ≤ st.iters then .error .iterLimit
    else
      match hde : st.g_costs endv with
      | ⊤ => .error .noPath
      | (c : ℚ) =>
        match reconstruct_path st.pred g.nodes.dedup.length s endv with
        | .error er => .error er
        | .ok path =>
          .ok
            { distance := c
              path := path
              g_costs := st.g_costs
              f_costs := st.f_costs
              predecessors := st.pred
              iterations := st.iters
              nodes_visited := st.visited.length
              nodes_evaluated := st.evaluated.length }


/-! ## Dijkstra correctness -/

/-- All edge weights seen by the kernel are non-negative. -/
def NonnegW (g : Graph) : Prop := ∀ u v : ℕ, v ∈ g.adj u → 0 ≤ edgeWeight g u v

theorem Reaches.nonneg {g : Graph} (hnn : NonnegW g) {u v : ℕ} {c : ℚ}
    (h : Reaches g u v c) : 0 ≤ c := by
  induction h with
  | refl _ => exact le_refl 0
  | step _ hw ih => exact add_nonneg ih (hnn _ _ hw)

/-- The core loop invariant of `dijkstra`, minus the completeness of
relaxations out of visited nodes (which is only re-established after the
neighbor loop finishes). -/
structure DInv0 (g : Graph) (s : ℕ) (st : DState) : Prop where
  hs : st.dist s ≤ (0 : WithTop ℚ)
  attain : ∀ v : ℕ, ∀ c : ℚ, st.dist v = (c : WithTop ℚ) → Reaches g s v c
  settled : ∀ v ∈ st.visited, ∃ c : ℚ, st.dist v = (c : WithTop ℚ) ∧
    ∀ c2 : ℚ, Reaches g s v c2 → c ≤ c2
  entries : ∀ e ∈ st.pq.heap, st.dist e.node ≤ e.prio ∧ e.prio ≠ ⊤
  frontier : ∀ v : ℕ, v ∉ st.visited → ∀ c : ℚ, st.dist v = (c : WithTop ℚ) →
    (⟨(c : WithTop ℚ), v⟩ : Ent) ∈ st.pq.heap
  predE : ∀ v u : ℕ, st.pred v = some u → v ∈ g.adj u
  hheap : HeapProp st.pq.heap

/-- The full loop invariant: additionally, every edge out of a visited node
into unvisited territory has been relaxed. -/
structure DInv (g : Graph) (s : ℕ) (st : DState) : Prop where
  core : DInv0 g s st
  relaxed : ∀ v ∈ st.visited, ∀ t ∈ g.adj v, t ∉ st.visited →
    st.dist t ≤ st.dist v + (edgeWeight g v t : WithTop ℚ)

theorem dijkstraInit_inv {g : Graph} {s : ℕ} (hsn : s ∈ g.nodes) :
    DInv g s (dijkstraInit s) := by
  constructor
  · constructor
    · simp [dijkstraInit]
    · intro v c hv
      simp only [dijkstraInit] at hv
      rcases eq_or_ne v s with rfl | hne
      · rw [Function.update_same] at hv
        have : c = 0 := by exact_mod_cast hv.symm
        exact this ▸ Reaches.refl hsn
      · rw [Function.update_noteq hne] at hv
        exact absurd hv (by simp)
    · intro v hv
      simp [dijkstraInit] at hv
    · intro e he
      simp only [dijkstraInit, PriorityQueue.insert, PriorityQueue.mk0] at he
      have := (heappush_perm [] (⟨0, s⟩ : Ent)).mem_iff.mp he
      simp at this
      subst this
      constructor
      · simp [dijkstraInit, Function.update_same]
      · simp
    · intro v _ c hv
      simp only [dijkstraInit] at hv
      rcases eq_or_ne v s with rfl | hne
      · rw [Function.update_same] at hv
        have hc : (c : WithTop ℚ) = 0 := hv.symm
        simp only [dijkstraInit, PriorityQueue.insert, PriorityQueue.mk0]
        rw [(heappush_perm [] (⟨0, v⟩ : Ent)).mem_iff]
        simp [hc]
      · rw [Function.update_noteq hne] at hv
        exact absurd hv (by simp)
    · intro v u hv
      simp [dijkstraInit] at hv
    · simp only [dijkstraInit, PriorityQueue.insert, PriorityQueue.mk0]
      exact heappush_heapProp (by intro i j hrel hj; simp at hj)
  · intro v hv
    simp [dijkstraInit] at hv


theorem relaxNeighbors_spec {g : Graph} {s u : ℕ} (hnn : NonnegW g) :
    ∀ (ns : List ℕ) (st : DState), DInv0 g s st → u ∈ st.visited →
    (∀ t ∈ ns, t ∈ g.adj u) →
    DInv0 g s (relaxNeighbors g u ns st) ∧
    (relaxNeighbors g u ns st).visited = st.visited ∧
    (relaxNeighbors g u ns st).iters = st.iters ∧
    (∀ v : ℕ, (relaxNeighbors g u ns st).dist v ≤ st.dist v) ∧
    (∀ v ∈ st.visited, (relaxNeighbors g u ns st).dist v = st.dist v) ∧
    (∀ t ∈ ns, t ∉ st.visited →
      (relaxNeighbors g u ns st).dist t ≤
        (relaxNeighbors g u ns st).dist u + (edgeWeight g u t : WithTop ℚ))
  | [], st, hc, hu, hns => by
    refine ⟨hc, rfl, rfl, fun v => le_refl _, fun v _ => rfl, ?_⟩
    intro t ht
    simp at ht
  | v :: rest, st, hc, hu, hns => by
    rw [relaxNeighbors]
    by_cases hvis : v ∈ st.visited
    · simp only [hvis, if_true]
      obtain ⟨ih1, ih2, ih3, ih4, ih5, ih6⟩ :=
        relaxNeighbors_spec hnn rest st hc hu (fun t ht => hns t (List.mem_cons_of_mem _ ht))
      refine ⟨ih1, ih2, ih3, ih4, ih5, ?_⟩
      intro t ht htv
      rcases List.mem_cons.mp ht with rfl | ht2
      · exact absurd hvis htv
      · exact ih6 t ht2 htv
    · simp only [hvis, if_false]
      have hadj : v ∈ g.adj u := hns v (List.mem_cons_self _ _)
      set w := edgeWeight g u v with hwdef
      by_cases himp : st.dist u + (w : WithTop ℚ) < st.dist v
      · simp only [himp, if_true]
        set nd := st.dist u + (w : WithTop ℚ) with hnd
        set st1 : DState :=
          { st with
            dist := Function.update st.dist v nd
            pred := Function.update st.pred v (some u)
            pq := st.pq.insert v nd } with hst1
        have hndt : nd ≠ ⊤ := ne_top_of_lt himp
        obtain ⟨ndq, hndq⟩ := WithTop.ne_top_iff_exists.mp hndt
        have hdut : st.dist u ≠ ⊤ := by
          intro hcon
          rw [hnd, hcon] at hndt
          simp at hndt
        obtain ⟨cu, hcu⟩ := WithTop.ne_top_iff_exists.mp hdut
        have hcuw : (cu : ℚ) + w = ndq := by
          have : ((cu + w : ℚ) : WithTop ℚ) = (ndq : WithTop ℚ) := by
            push_cast
            rw [hndq, hnd, ← hcu]
          exact_mod_cast this
        have hmono1 : ∀ x : ℕ, st1.dist x ≤ st.dist x := by
          intro x
          rcases eq_or_ne x v with rfl | hne
          · show Function.update st.dist x nd x ≤ st.dist x
            rw [Function.update_same]
            exact le_of_lt himp
          · show Function.update st.dist v nd x ≤ st.dist x
            rw [Function.update_noteq hne]
        have heq1 : ∀ x ∈ st.visited, st1.dist x = st.dist x := by
          intro x hx
          have hne : x ≠ v := fun hxx => hvis (hxx ▸ hx)
          show Function.update st.dist v nd x = st.dist x
          rw [Function.update_noteq hne]
        have hc1 : DInv0 g s st1 := by
          constructor
          · rcases eq_or_ne s v with rfl | hne
            · show Function.update st.dist s nd s ≤ (0 : WithTop ℚ)
              rw [Function.update_same]
              exact le_of_lt (lt_of_lt_of_le himp hc.hs)
            · show Function.update st.dist v nd s ≤ (0 : WithTop ℚ)
              rw [Function.update_noteq hne]
              exact hc.hs
          · intro x c hx
            rcases eq_or_ne x v with rfl | hne
            · rw [show st1.dist x = nd from Function.update_same _ _ _] at hx
              have hcq : c = ndq := by
                rw [hx] at hndq
                exact_mod_cast hndq.symm
              subst hcq
              rw [← hcuw]
              exact Reaches.step (hc.attain u cu hcu.symm) hadj
            · rw [show st1.dist x = st.dist x from Function.update_noteq hne _ _] at hx
              exact hc.attain x c hx
          · intro x hx
            obtain ⟨c, hcx, hleast⟩ := hc.settled x hx
            exact ⟨c, (heq1 x hx).trans hcx, hleast⟩
          · intro e he
            have hmem := (heappush_perm st.pq.heap ⟨nd, v⟩).mem_iff.mp he
            rcases List.mem_cons.mp hmem with rfl | hold
            · constructor
              · show st1.dist v ≤ nd
                rw [show st1.dist v = nd from Function.update_same _ _ _]
              · exact hndt
            · obtain ⟨h1, h2⟩ := hc.entries e hold
              exact ⟨le_trans (hmono1 e.node) h1, h2⟩
          · intro x hxv c hx
            rcases eq_or_ne x v with rfl | hne
            · rw [show st1.dist x = nd from Function.update_same _ _ _] at hx
              have : (⟨(c : WithTop ℚ), x⟩ : Ent) = ⟨nd, x⟩ := by rw [hx]
              rw [this]
              exact (heappush_perm st.pq.heap ⟨nd, x⟩).mem_iff.mpr (List.mem_cons_self _ _)
            · rw [show st1.dist x = st.dist x from Function.update_noteq hne _ _] at hx
              exact (heappush_perm st.pq.heap ⟨nd, v⟩).mem_iff.mpr
                (List.mem_cons_of_mem _ (hc.frontier x hxv c hx))
          · intro x y hxy
            rcases eq_or_ne x v with rfl | hne
            · rw [show st1.pred x = some u from Function.update_same _ _ _] at hxy
              cases hxy
              exact hadj
            · rw [show st1.pred x = st.pred x from Function.update_noteq hne _ _] at hxy
              exact hc.predE x y hxy
          · exact heappush_heapProp hc.hheap
        obtain ⟨ih1, ih2, ih3, ih4, ih5, ih6⟩ :=
          relaxNeighbors_spec hnn rest st1 hc1 hu (fun t ht => hns t (List.mem_cons_of_mem _ ht))
        have hueq : (relaxNeighbors g u rest st1).dist u = st.dist u := by
          rw [ih5 u hu]
          exact heq1 u hu
        refine ⟨ih1, ih2, ih3,
          fun x => le_trans (ih4 x) (hmono1 x),
          fun x hx => (ih5 x hx).trans (heq1 x hx), ?_⟩
        intro t ht htv
        rcases List.mem_cons.mp ht with rfl | ht2
        · calc (relaxNeighbors g u rest st1).dist t
              ≤ st1.dist t := ih4 t
            _ = nd := Function.update_same _ _ _
            _ = (relaxNeighbors g u rest st1).dist u + (w : WithTop ℚ) := by rw [hueq, hnd]
        · exact ih6 t ht2 htv
      · simp only [himp, if_false]
        obtain ⟨ih1, ih2, ih3, ih4, ih5, ih6⟩ :=
          relaxNeighbors_spec hnn rest st hc hu (fun t ht => hns t (List.mem_cons_of_mem _ ht))
        refine ⟨ih1, ih2, ih3, ih4, ih5, ?_⟩
        intro t ht htv
        rcases List.mem_cons.mp ht with rfl | ht2
        · calc (relaxNeighbors g u rest st).dist t
              ≤ st.dist t := ih4 t
            _ ≤ st.dist u + (w : WithTop ℚ) := le_of_not_lt himp
            _ = (relaxNeighbors g u rest st).dist u + (w : WithTop ℚ) := by rw [ih5 u hu]
        · exact ih6 t ht2 htv


/-- Walk-crossing lemma: any walk from `s` into unvisited territory passes a
node whose tentative distance is a lower bound of the walk cost. -/
theorem dinv_cover {g : Graph} {s : ℕ} (hnn : NonnegW g) {st : DState}
    (hinv : DInv g s st) {t : ℕ} {c2 : ℚ} (hr : Reaches g s t c2) :
    t ∉ st.visited →
    ∃ (x : ℕ) (cx : ℚ), x ∉ st.visited ∧ st.dist x = (cx : WithTop ℚ) ∧ cx ≤ c2 := by
  induction hr with
  | refl hu =>
    intro htv
    have hnet : st.dist s ≠ ⊤ := fun hcon => by
      have hle := hinv.core.hs
      rw [hcon] at hle
      exact absurd hle (by simp)
    obtain ⟨c, hcdef⟩ := WithTop.ne_top_iff_exists.mp hnet
    refine ⟨s, c, htv, hcdef.symm, ?_⟩
    have : (c : WithTop ℚ) ≤ ((0 : ℚ) : WithTop ℚ) := by
      rw [hcdef]
      exact_mod_cast hinv.core.hs
    exact_mod_cast this
  | step h hw ih =>
    rename_i v w c
    intro htv
    by_cases hv : v ∈ st.visited
    · obtain ⟨cv, hcv, hleast⟩ := hinv.core.settled v hv
      have hle := hinv.relaxed v hv w hw htv
      rw [hcv] at hle
      have hle2 : st.dist w ≤ ((cv + edgeWeight g v w : ℚ) : WithTop ℚ) := by
        rw [WithTop.coe_add]
        exact hle
      have hnet : st.dist w ≠ ⊤ := ne_top_of_le_ne_top (WithTop.coe_ne_top) hle2
      obtain ⟨cw, hcw⟩ := WithTop.ne_top_iff_exists.mp hnet
      refine ⟨w, cw, htv, hcw.symm, ?_⟩
      have hcw2 : (cw : ℚ) ≤ cv + edgeWeight g v w := by
        rw [← hcw] at hle2
        exact_mod_cast hle2
      exact hcw2.trans (add_le_add_right (hleast c h) _)
    · obtain ⟨x, cx, hx1, hx2, hx3⟩ := ih hv
      exact ⟨x, cx, hx1, hx2, hx3.trans (le_add_of_nonneg_right (hnn v w hw))⟩

/-- Iteration accounting and exit reasons of the main loop: it consumes at
most `fuel` iterations, and if it stops with budget to spare then either the
queue is empty or `end` has been visited. -/
theorem relaxNeighbors_shape (g : Graph) (u : ℕ) :
    ∀ (ns : List ℕ) (st : DState),
    (relaxNeighbors g u ns st).iters = st.iters ∧
    (relaxNeighbors g u ns st).visited = st.visited
  | [], st => ⟨rfl, rfl⟩
  | v :: rest, st => by
    rw [relaxNeighbors]
    by_cases hvis : v ∈ st.visited
    · simp only [hvis, if_true]
      exact relaxNeighbors_shape g u rest st
    · simp only [hvis, if_false]
      by_cases himp : st.dist u + (edgeWeight g u v : WithTop ℚ) < st.dist v
      · simp only [himp, if_true]
        exact relaxNeighbors_shape g u rest _
      · simp only [himp, if_false]
        exact relaxNeighbors_shape g u rest st

/-- Iteration accounting and exit reasons of the main loop: it consumes at
most `fuel` iterations, and if it stops with budget to spare then either the
queue is empty or `end` has been visited. -/
theorem dloop_iters (g : Graph) (endv : Option ℕ) :
    ∀ (fuel : ℕ) (st : DState),
    (dloop g endv fuel st).iters ≤ st.iters + fuel ∧
    ((dloop g endv fuel st).iters < st.iters + fuel →
      (dloop g endv fuel st).pq.heap = [] ∨
      ∃ e, endv = some e ∧ e ∈ (dloop g endv fuel st).visited)
  | 0, st => ⟨le_refl _, fun hlt => absurd hlt (lt_irrefl _)⟩
  | fuel + 1, st => by
    rw [dloop]
    by_cases hemp : st.pq.is_empty
    · simp only [hemp, if_true]
      refine ⟨by omega, fun _ => Or.inl ?_⟩
      rw [PriorityQueue.is_empty, decide_eq_true_eq, List.length_eq_zero] at hemp
      exact hemp
    · simp only [hemp, Bool.false_eq_true, if_false]
      match hex : st.pq.extract_min with
      | .error er =>
        rw [PriorityQueue.extract_min] at hex
        split at hex
        · rename_i hq
          rw [PriorityQueue.is_empty, hq] at hemp
          simp at hemp
        · exact absurd hex (by simp)
      | .ok (u, pq2) =>
        by_cases hu : u ∈ st.visited
        · simp only [hu, if_true]
          obtain ⟨ha, hb⟩ := dloop_iters g endv fuel
            { st with pq := pq2, iters := st.iters + 1 }
          try dsimp only at ha hb
          exact ⟨by omega, fun hlt => hb (by omega)⟩
        · simp only [hu, if_false]
          by_cases hend : some u = endv
          · simp only [hend, if_true]
            refine ⟨by try dsimp only
                       omega, fun _ => Or.inr ⟨u, hend.symm, ?_⟩⟩
            try dsimp only
            exact List.mem_cons_self _ _
          · simp only [hend, if_false]
            obtain ⟨ha, hb⟩ := dloop_iters g endv fuel
              (relaxNeighbors g u (g.adj u)
                { st with pq := pq2, iters := st.iters + 1, visited := u :: st.visited })
            obtain ⟨hi, hv⟩ := relaxNeighbors_shape g u (g.adj u)
              { st with pq := pq2, iters := st.iters + 1, visited := u :: st.visited }
            rw [hi] at ha hb
            try dsimp only at ha hb
            exact ⟨by omega, fun hlt => hb (by omega)⟩


/-- The main loop of `dijkstra` preserves the invariant; the final state
satisfies the core invariant (in particular every visited node's distance is
the shortest-path distance, and unvisited nodes with finite distance still
have a queue entry). -/
theorem dloop_inv {g : Graph} {s : ℕ} (hnn : NonnegW g) (endv : Option ℕ) :
    ∀ (fuel : ℕ) (st : DState), DInv g s st → DInv0 g s (dloop g endv fuel st)
  | 0, _, hinv => hinv.core
  | fuel + 1, st, hinv => by
    rw [dloop]
    by_cases hemp : st.pq.is_empty
    · simp only [hemp, if_true]
      exact hinv.core
    · simp only [hemp, Bool.false_eq_true, if_false]
      have hne : st.pq.heap ≠ [] := by
        intro hq
        rw [PriorityQueue.is_empty, hq] at hemp
        simp at hemp
      obtain ⟨e, q2, hex, hemem, hmin, hperm, hheap2, hkeep⟩ :=
        PriorityQueue.extract_min_spec hinv.core.hheap hne
      match hex2 : st.pq.extract_min with
      | .error er =>
        rw [hex2] at hex
        exact absurd hex (by simp)
      | .ok (u, pq2) =>
        rw [hex2] at hex
        simp only [Except.ok.injEq, Prod.mk.injEq] at hex
        obtain ⟨hu_eq, hq_eq⟩ := hex
        subst hq_eq
        subst hu_eq
        by_cases hu : e.node ∈ st.visited
        · simp only [hu, if_true]
          refine dloop_inv hnn endv fuel _ ⟨?_, ?_⟩
          · constructor
            · exact hinv.core.hs
            · exact hinv.core.attain
            · exact hinv.core.settled
            · intro e2 he2
              exact hinv.core.entries e2 (List.tail_subset _ (hperm.mem_iff.mp he2))
            · intro x hxv c hx
              refine hkeep _ (hinv.core.frontier x hxv c hx) ?_
              intro hcon
              have hxe : x = e.node := by
                have := congrArg Ent.node hcon
                simpa using this
              exact hxv (hxe ▸ hu)
            · exact hinv.core.predE
            · exact hheap2
          · intro v hv t ht htv
            exact hinv.relaxed v hv t ht htv
        · simp only [hu, if_false]
          -- the popped node gets settled: its tentative distance is finite
          -- and bounds every walk cost from below
          obtain ⟨hde, hpne⟩ := hinv.core.entries e hemem
          have hdet : st.dist e.node ≠ ⊤ := ne_top_of_le_ne_top hpne hde
          obtain ⟨ce, hce⟩ := WithTop.ne_top_iff_exists.mp hdet
          have hleast : ∀ c2 : ℚ, Reaches g s e.node c2 → ce ≤ c2 := by
            intro c2 hr
            obtain ⟨x, cx, hxv, hxd, hxle⟩ := dinv_cover hnn hinv hr hu
            have hentx := hinv.core.frontier x hxv cx hxd
            have hpx : e.prio ≤ ((cx : ℚ) : WithTop ℚ) := Ent.prio_le_of_le (hmin _ hentx)
            have hcoe : ((ce : ℚ) : WithTop ℚ) ≤ ((cx : ℚ) : WithTop ℚ) := by
              rw [hce]
              exact hde.trans hpx
            exact le_trans (by exact_mod_cast hcoe) hxle
          have hcore2 : DInv0 g s { st with pq := pq2, iters := st.iters + 1, visited := e.node :: st.visited } := by
            constructor
            · exact hinv.core.hs
            · exact hinv.core.attain
            · intro x hx
              rcases List.mem_cons.mp hx with hxe | hold
              · subst hxe
                exact ⟨ce, hce.symm, hleast⟩
              · exact hinv.core.settled x hold
            · intro e2 he2
              exact hinv.core.entries e2 (List.tail_subset _ (hperm.mem_iff.mp he2))
            · intro x hxv c hx
              have hxu : x ≠ e.node := fun hcon => hxv (hcon ▸ List.mem_cons_self _ _)
              refine hkeep _ (hinv.core.frontier x (fun hcon =>
                hxv (List.mem_cons_of_mem _ hcon)) c hx) ?_
              intro hcon
              refine hxu ?_
              have := congrArg Ent.node hcon
              simpa using this
            · exact hinv.core.predE
            · exact hheap2
          by_cases hend : some e.node = endv
          · simp only [hend, if_true]
            exact hcore2
          · simp only [hend, if_false]
            obtain ⟨hr1, hr2, hr3, hr4, hr5, hr6⟩ :=
              relaxNeighbors_spec (s := s) hnn (g.adj e.node)
                { st with pq := pq2, iters := st.iters + 1, visited := e.node :: st.visited }
                hcore2 (List.mem_cons_self _ _) (fun t ht => ht)
            refine dloop_inv hnn endv fuel _ ⟨hr1, ?_⟩
            intro v hv t ht htv
            rw [hr2] at hv htv
            rcases List.mem_cons.mp hv with hve | hvold
            · subst hve
              exact hr6 t ht htv
            · have hvd : (relaxNeighbors g e.node (g.adj e.node) { st with pq := pq2, iters := st.iters + 1, visited := e.node :: st.visited }).dist v = st.dist v := hr5 v hv
              have htd : (relaxNeighbors g e.node (g.adj e.node) { st with pq := pq2, iters := st.iters + 1, visited := e.node :: st.visited }).dist t ≤ st.dist t := hr4 t
              have hold := hinv.relaxed v hvold t ht
                (fun hcon => htv (List.mem_cons_of_mem _ hcon))
              rw [hvd]
              exact le_trans htd hold


/-- Anatomy of a successful `dijkstra` call with a destination: the
validations passed, the loop stopped below the iteration cap, the
destination distance is finite and is the reported distance, and the path
was reconstructed from the final predecessor map. -/
theorem dijkstra_ok_elim {g : Graph} {s e maxIter : ℕ} {r : DijResult}
    (hok : dijkstra g s (some e) maxIter = .ok (.res r)) :
    s ∈ g.nodes ∧ e ∈ g.nodes ∧
    ∃ c : ℚ, (dloopFinal g s (some e) maxIter).dist e = (c : WithTop ℚ) ∧
      r.distance = c ∧
      (dloopFinal g s (some e) maxIter).iters < maxIter ∧
      reconstruct_path (dloopFinal g s (some e) maxIter).pred
        g.nodes.dedup.length s e = .ok r.path := by
  rw [dijkstra] at hok
  split at hok
  · exact absurd hok (by simp)
  next hsn =>
  rw [not_not] at hsn
  split at hok
  next hen =>
    exact absurd hok (by simp)
  next hen =>
  simp only [decide_eq_true_eq, not_not] at hen
  simp only [] at hok
  split at hok
  · exact absurd hok (by simp)
  next hit =>
  rw [not_le] at hit
  refine ⟨hsn, hen, ?_⟩
  split at hok
  · exact absurd hok (by simp)
  next c hde =>
  split at hok
  · exact absurd hok (by simp)
  next path hre =>
  simp only [Except.ok.injEq, DijOut.res.injEq] at hok
  subst hok
  exact ⟨c, hde, rfl, hit, hre⟩


/-- C1 helper: on any successful `dijkstra(start, end)` call over a graph
with non-negative weights, the reported distance is the reference
shortest-path distance. -/
theorem dijkstra_distance_shortest {g : Graph} {s e maxIter : ℕ} {r : DijResult}
    (hnn : NonnegW g) (hok : dijkstra g s (some e) maxIter = .ok (.res r)) :
    IsShortestDist g s e r.distance := by
  obtain ⟨hsn, hen, c, hde, hrd, hit, hre⟩ := dijkstra_ok_elim hok
  have hfin : dloopFinal g s (some e) maxIter
      = dloop g (some e) maxIter (dijkstraInit s) := rfl
  have hinv0 : DInv0 g s (dloopFinal g s (some e) maxIter) :=
    dloop_inv hnn (some e) maxIter _ (dijkstraInit_inv hsn)
  obtain ⟨hbound, hexit⟩ := dloop_iters g (some e) maxIter (dijkstraInit s)
  have hexit2 := hexit (by
    rw [← hfin]
    have : (dijkstraInit s).iters = 0 := rfl
    omega)
  have hev : e ∈ (dloopFinal g s (some e) maxIter).visited := by
    rcases hexit2 with hnil | ⟨e2, he2eq, he2v⟩
    · by_contra hev
      have hmem := hinv0.frontier e hev c hde
      rw [hfin, hnil] at hmem
      simp at hmem
    · have : e2 = e := by
        injection he2eq with h
        exact h.symm
      subst this
      rw [hfin]
      exact he2v
  obtain ⟨ce, hdist, hleast⟩ := hinv0.settled e hev
  have hce : c = ce := by
    rw [hde] at hdist
    exact_mod_cast hdist
  rw [hrd, hce]
  exact ⟨hinv0.attain e ce hdist, hleast⟩

theorem reconWalk_sound (pred : ℕ → Option ℕ) (start endv : ℕ) :
    ∀ (fuel : ℕ) (cur : Option ℕ) (stack : List ℕ),
    List.Chain' (fun a b => pred b = some a) stack →
    (∀ c : ℕ, cur = some c →
      (stack = [] ∨ ∃ st0 rest, stack = st0 :: rest ∧ pred st0 = some c)) →
    (∀ x : ℕ, stack.head? = some x → x ≠ start) →
    (stack = [] → cur = some endv) →
    (stack ≠ [] → stack.getLast? = some endv) →
    (reconWalk pred start fuel cur stack = [] ∨
      ∃ top rest2, reconWalk pred start fuel cur stack = top :: rest2 ∧
        (top = start →
          List.Chain' (fun a b => pred b = some a) (top :: rest2) ∧
          (top :: rest2).getLast? = some endv))
  | 0, cur, stack => by
    intro hch hcur hns hl1 hl2
    rw [reconWalk]
    match stack with
    | [] => exact Or.inl rfl
    | st0 :: rest =>
      exact Or.inr ⟨st0, rest, rfl, fun htop => absurd htop (hns st0 rfl)⟩
  | fuel + 1, none, stack => by
    intro hch hcur hns hl1 hl2
    rw [reconWalk]
    match stack with
    | [] => exact Or.inl rfl
    | st0 :: rest =>
      exact Or.inr ⟨st0, rest, rfl, fun htop => absurd htop (hns st0 rfl)⟩
  | fuel + 1, some c, stack => by
    intro hch hcur hns hl1 hl2
    rw [reconWalk]
    have hchc : List.Chain' (fun a b => pred b = some a) (c :: stack) := by
      rw [List.chain'_cons']
      refine ⟨?_, hch⟩
      intro y hy
      rcases hcur c rfl with hnil | ⟨st0, rest, hst, hp⟩
      · rw [hnil] at hy
        simp at hy
      · rw [hst] at hy
        simp at hy
        exact hy ▸ hp
    have hlastc : (c :: stack).getLast? = some endv := by
      match stack with
      | [] =>
        have := hl1 rfl
        injection this with h
        rw [h]
        rfl
      | b :: t =>
        rw [List.getLast?_cons_cons]
        exact hl2 (by simp)
    by_cases hc : c = start
    · simp only [hc, if_true]
      exact Or.inr ⟨start, stack, rfl, fun _ => ⟨hc ▸ hchc, hc ▸ hlastc⟩⟩
    · simp only [hc, if_false]
      exact reconWalk_sound pred start endv fuel (pred c) (c :: stack)
        hchc
        (fun x hx => Or.inr ⟨c, stack, rfl, hx⟩)
        (fun x hx => by
          simp at hx
          exact hx ▸ hc)
        (fun hcon => absurd hcon (by simp))
        (fun _ => hlastc)

/-- Soundness of `reconstruct_path`: a successfully reconstructed path
starts at `start`, ends at `end`, and successive nodes follow predecessor
links. -/
theorem reconstruct_path_ok {pred : ℕ → Option ℕ} {n start endv : ℕ}
    {path : List ℕ} (h : reconstruct_path pred n start endv = .ok path) :
    path.head? = some start ∧ path.getLast? = some endv ∧
    List.Chain' (fun a b => pred b = some a) path := by
  rw [reconstruct_path] at h
  have hsound := reconWalk_sound pred start endv (n + 2) (some endv) []
    List.chain'_nil (fun c _ => Or.inl rfl) (by simp) (fun _ => rfl)
    (fun hcon => absurd rfl hcon)
  split at h
  · exact absurd h (by simp)
  next top rest hstack =>
  split at h
  next htop =>
    simp only [Except.ok.injEq] at h
    subst h
    rcases hsound with hnil | ⟨top2, rest2, heq, himp⟩
    · rw [hstack] at hnil
      simp at hnil
    · rw [hstack] at heq
      injection heq with h1 h2
      subst h1 h2
      obtain ⟨hc, hl⟩ := himp htop
      subst htop
      exact ⟨rfl, hl, hc⟩
  · exact absurd h (by simp)

theorem relaxNeighbors_predE {g : Graph} {u : ℕ} :
    ∀ (ns : List ℕ) (st : DState),
    (∀ t ∈ ns, t ∈ g.adj u) →
    (∀ v w : ℕ, st.pred v = some w → v ∈ g.adj w) →
    ∀ v w : ℕ, (relaxNeighbors g u ns st).pred v = some w → v ∈ g.adj w
  | [], st, _, hp => hp
  | t :: rest, st, hns, hp => by
    rw [relaxNeighbors]
    by_cases hvis : t ∈ st.visited
    · simp only [hvis, if_true]
      exact relaxNeighbors_predE rest st (fun x hx => hns x (List.mem_cons_of_mem _ hx)) hp
    · simp only [hvis, if_false]
      by_cases himp : st.dist u + (edgeWeight g u t : WithTop ℚ) < st.dist t
      · simp only [himp, if_true]
        refine relaxNeighbors_predE rest _
          (fun x hx => hns x (List.mem_cons_of_mem _ hx)) ?_
        intro v w hv
        rcases eq_or_ne v t with rfl | hne
        · have hv2 : Function.update st.pred v (some u) v = some w := hv
          rw [Function.update_same] at hv2
          injection hv2 with hv3
          subst hv3
          exact hns v (List.mem_cons_self _ _)
        · have hv2 : Function.update st.pred t (some u) v = some w := hv
          rw [Function.update_noteq hne] at hv2
          exact hp v w hv2
      · simp only [himp, if_false]
        exact relaxNeighbors_predE rest st (fun x hx => hns x (List.mem_cons_of_mem _ hx)) hp

theorem dloop_predE {g : Graph} {endv : Option ℕ} :
    ∀ (fuel : ℕ) (st : DState),
    (∀ v w : ℕ, st.pred v = some w → v ∈ g.adj w) →
    ∀ v w : ℕ, (dloop g endv fuel st).pred v = some w → v ∈ g.adj w
  | 0, st, hp => hp
  | fuel + 1, st, hp => by
    rw [dloop]
    by_cases hemp : st.pq.is_empty
    · simp only [hemp, if_true]
      exact hp
    · simp only [hemp, Bool.false_eq_true, if_false]
      match st.pq.extract_min with
      | .error er => exact hp
      | .ok (u, pq2) =>
        by_cases hu : u ∈ st.visited
        · simp only [hu, if_true]
          exact dloop_predE fuel _ hp
        · simp only [hu, if_false]
          by_cases hend : some u = endv
          · simp only [hend, if_true]
            exact hp
          · simp only [hend, if_false]
            exact dloop_predE fuel _ (relaxNeighbors_predE (g.adj u) _ (fun t ht => ht) hp)

/-- C7 helper (Dijkstra side): a successful call returns a path from
`start` to `end` whose consecutive pairs are directed edges of the graph. -/
theorem dijkstra_path_valid {g : Graph} {s e maxIter : ℕ} {r : DijResult}
    (hok : dijkstra g s (some e) maxIter = .ok (.res r)) :
    r.path.head? = some s ∧ r.path.getLast? = some e ∧
    List.Chain' (fun a b => b ∈ g.adj a) r.path := by
  obtain ⟨hsn, hen, c, hde, hrd, hit, hre⟩ := dijkstra_ok_elim hok
  obtain ⟨h1, h2, h3⟩ := reconstruct_path_ok hre
  refine ⟨h1, h2, ?_⟩
  have hpe : ∀ v w : ℕ, (dloopFinal g s (some e) maxIter).pred v = some w → v ∈ g.adj w :=
    dloop_predE maxIter (dijkstraInit s) (by intro v w hv; simp [dijkstraInit] at hv)
  exact List.Chain'.imp (fun a b hab => hpe b a hab) h3


/-- Anatomy of a successful `a_star` call. -/
theorem a_star_ok_elim {g : Graph} {eu : ℕ → ℕ → ℚ} {s e maxIter : ℕ}
    {r : AStarResult} (hok : a_star g eu s e maxIter = .ok r) :
    s ∈ g.nodes ∧ e ∈ g.nodes ∧
    ∃ c : ℚ, (aloopFinal g eu s e maxIter).g_costs e = (c : WithTop ℚ) ∧
      r.distance = c ∧
      (aloopFinal g eu s e maxIter).iters < maxIter ∧
      reconstruct_path (aloopFinal g eu s e maxIter).pred
        g.nodes.dedup.length s e = .ok r.path := by
  rw [a_star] at hok
  split at hok
  · exact absurd hok (by simp)
  next hsn =>
  rw [not_not] at hsn
  split at hok
  · exact absurd hok (by simp)
  next hen =>
  rw [not_not] at hen
  simp only [] at hok
  split at hok
  · exact absurd hok (by simp)
  next hit =>
  rw [not_le] at hit
  refine ⟨hsn, hen, ?_⟩
  split at hok
  · exact absurd hok (by simp)
  next c hde =>
  split at hok
  · exact absurd hok (by simp)
  next path hre =>
  simp only [Except.ok.injEq] at hok
  subst hok
  exact ⟨c, hde, rfl, hit, hre⟩

theorem aStarRelax_predE {g : Graph} {eu : ℕ → ℕ → ℚ} {endv u : ℕ} :
    ∀ (ns : List ℕ) (st : AState),
    (∀ t ∈ ns, t ∈ g.adj u) →
    (∀ v w : ℕ, st.pred v = some w → v ∈ g.adj w) →
    ∀ v w : ℕ, (aStarRelax g eu endv u ns st).pred v = some w → v ∈ g.adj w
  | [], st, _, hp => hp
  | t :: rest, st, hns, hp => by
    rw [aStarRelax]
    by_cases hvis : t ∈ st.visited
    · simp only [hvis, if_true]
      exact aStarRelax_predE rest st (fun x hx => hns x (List.mem_cons_of_mem _ hx)) hp
    · simp only [hvis, if_false]
      by_cases himp : st.g_costs u + (edgeWeight g u t : WithTop ℚ) < st.g_costs t
      · simp only [himp, if_true]
        refine aStarRelax_predE rest _
          (fun x hx => hns x (List.mem_cons_of_mem _ hx)) ?_
        intro v w hv
        rcases eq_or_ne v t with rfl | hne
        · have hv2 : Function.update st.pred v (some u) v = some w := hv
          rw [Function.update_same] at hv2
          injection hv2 with hv3
          subst hv3
          exact hns v (List.mem_cons_self _ _)
        · have hv2 : Function.update st.pred t (some u) v = some w := hv
          rw [Function.update_noteq hne] at hv2
          exact hp v w hv2
      · simp only [himp, if_false]
        exact aStarRelax_predE rest st (fun x hx => hns x (List.mem_cons_of_mem _ hx)) hp

theorem aloop_predE {g : Graph} {eu : ℕ → ℕ → ℚ} {endv : ℕ} :
    ∀ (fuel : ℕ) (st : AState),
    (∀ v w : ℕ, st.pred v = some w → v ∈ g.adj w) →
    ∀ v w : ℕ, (aloop g eu endv fuel st).pred v = some w → v ∈ g.adj w
  | 0, st, hp => hp
  | fuel + 1, st, hp => by
    rw [aloop]
    by_cases hemp : st.openSet.is_empty
    · simp only [hemp, if_true]
      exact hp
    · simp only [hemp, Bool.false_eq_true, if_false]
      match st.openSet.extract_min with
      | .error er => exact hp
      | .ok (u, pq2) =>
        by_cases hu : u ∈ st.visited
        · simp only [hu, if_true]
          exact aloop_predE fuel _ hp
        · simp only [hu, if_false]
          by_cases hend : u = endv
          · simp only [hend, if_true]
            exact hp
          · simp only [hend, if_false]
            exact aloop_predE fuel _ (aStarRelax_predE (g.adj u) _ (fun t ht => ht) hp)

/-- C7 helper (A* side): a successful call returns a path from `start` to
`end` whose consecutive pairs are directed edges of the graph, for any
heuristic function. -/
theorem a_star_path_valid {g : Graph} {eu : ℕ → ℕ → ℚ} {s e maxIter : ℕ}
    {r : AStarResult} (hok : a_star g eu s e maxIter = .ok r) :
    r.path.head? = some s ∧ r.path.getLast? = some e ∧
    List.Chain' (fun a b => b ∈ g.adj a) r.path := by
  obtain ⟨hsn, hen, c, hde, hrd, hit, hre⟩ := a_star_ok_elim hok
  obtain ⟨h1, h2, h3⟩ := reconstruct_path_ok hre
  refine ⟨h1, h2, ?_⟩
  have hpe : ∀ v w : ℕ, (aloopFinal g eu s e maxIter).pred v = some w → v ∈ g.adj w :=
    aloop_predE maxIter (aStarInit eu s e) (by intro v w hv; simp [aStarInit] at hv)
  exact List.Chain'.imp (fun a b hab => hpe b a hab) h3


/-! ## C9: the missing `weight` attribute defaults to `1.0` -/

/-- The graph with every edge's missing `weight` attribute replaced by the
explicit default `1.0` read by `.get(\'weight\', 1.0)`. -/
def fillDefault (g : Graph) : Graph :=
  { g with wAttr := fun u v => some (edgeWeight g u v) }

theorem fillDefault_nodes (g : Graph) : (fillDefault g).nodes = g.nodes := rfl

theorem fillDefault_adj (g : Graph) : (fillDefault g).adj = g.adj := rfl

theorem edgeWeight_fillDefault (g : Graph) (u v : ℕ) :
    edgeWeight (fillDefault g) u v = edgeWeight g u v := rfl

theorem relaxNeighbors_fillDefault (g : Graph) (u : ℕ) :
    ∀ (ns : List ℕ) (st : DState),
    relaxNeighbors (fillDefault g) u ns st = relaxNeighbors g u ns st
  | [], _ => rfl
  | v :: rest, st => by
    simp only [relaxNeighbors, edgeWeight_fillDefault]
    by_cases hvis : v ∈ st.visited
    · simp only [hvis, if_true]
      exact relaxNeighbors_fillDefault g u rest st
    · simp only [hvis, if_false]
      by_cases himp : st.dist u + (edgeWeight g u v : WithTop ℚ) < st.dist v
      · simp only [himp, if_true]
        exact relaxNeighbors_fillDefault g u rest _
      · simp only [himp, if_false]
        exact relaxNeighbors_fillDefault g u rest st

theorem dloop_fillDefault (g : Graph) (endv : Option ℕ) :
    ∀ (fuel : ℕ) (st : DState),
    dloop (fillDefault g) endv fuel st = dloop g endv fuel st
  | 0, _ => rfl
  | fuel + 1, st => by
    simp only [dloop, fillDefault_adj, relaxNeighbors_fillDefault]
    by_cases hemp : st.pq.is_empty
    · simp only [hemp, if_true]
    · simp only [hemp, Bool.false_eq_true, if_false]
      match st.pq.extract_min with
      | .error er => rfl
      | .ok (u, pq2) =>
        by_cases hu : u ∈ st.visited
        · simp only [hu, if_true]
          exact dloop_fillDefault g endv fuel _
        · simp only [hu, if_false]
          by_cases hend : some u = endv
          · simp only [hend, if_true]
          · simp only [hend, if_false]
            exact dloop_fillDefault g endv fuel _

/-- C9 helper: `dijkstra` only reads the edge weight through the
`.get(\'weight\', 1.0)` default, so filling the missing attributes with an
explicit `1.0` does not change its behavior at all. -/
theorem dloopFinal_fillDefault (g : Graph) (s : ℕ) (endv : Option ℕ) (m : ℕ) :
    dloopFinal (fillDefault g) s endv m = dloopFinal g s endv m :=
  dloop_fillDefault g endv m (dijkstraInit s)

theorem dijkstra_fillDefault (g : Graph) (s : ℕ) (endv : Option ℕ) (m : ℕ) :
    dijkstra (fillDefault g) s endv m = dijkstra g s endv m := by
  rw [dijkstra.eq_def, dijkstra.eq_def, dloopFinal_fillDefault, fillDefault_nodes]

theorem aStarRelax_fillDefault (g : Graph) (eu : ℕ → ℕ → ℚ) (endv u : ℕ) :
    ∀ (ns : List ℕ) (st : AState),
    aStarRelax (fillDefault g) eu endv u ns st = aStarRelax g eu endv u ns st
  | [], _ => rfl
  | v :: rest, st => by
    simp only [aStarRelax, edgeWeight_fillDefault]
    by_cases hvis : v ∈ st.visited
    · simp only [hvis, if_true]
      exact aStarRelax_fillDefault g eu endv u rest st
    · simp only [hvis, if_false]
      by_cases himp : st.g_costs u + (edgeWeight g u v : WithTop ℚ) < st.g_costs v
      · simp only [himp, if_true]
        exact aStarRelax_fillDefault g eu endv u rest _
      · simp only [himp, if_false]
        exact aStarRelax_fillDefault g eu endv u rest st

theorem aloop_fillDefault (g : Graph) (eu : ℕ → ℕ → ℚ) (endv : ℕ) :
    ∀ (fuel : ℕ) (st : AState),
    aloop (fillDefault g) eu endv fuel st = aloop g eu endv fuel st
  | 0, _ => rfl
  | fuel + 1, st => by
    simp only [aloop, fillDefault_adj, aStarRelax_fillDefault]
    by_cases hemp : st.openSet.is_empty
    · simp only [hemp, if_true]
    · simp only [hemp, Bool.false_eq_true, if_false]
      match st.openSet.extract_min with
      | .error er => rfl
      | .ok (u, pq2) =>
        by_cases hu : u ∈ st.visited
        · simp only [hu, if_true]
          exact aloop_fillDefault g eu endv fuel _
        · simp only [hu, if_false]
          by_cases hend : u = endv
          · simp only [hend, if_true]
          · simp only [hend, if_false]
            exact aloop_fillDefault g eu endv fuel _

/-- C9 helper, A* side. -/
theorem aloopFinal_fillDefault (g : Graph) (eu : ℕ → ℕ → ℚ) (s e m : ℕ) :
    aloopFinal (fillDefault g) eu s e m = aloopFinal g eu s e m :=
  aloop_fillDefault g eu e m (aStarInit eu s e)

theorem a_star_fillDefault (g : Graph) (eu : ℕ → ℕ → ℚ) (s e m : ℕ) :
    a_star (fillDefault g) eu s e m = a_star g eu s e m := by
  rw [a_star.eq_def, a_star.eq_def, aloopFinal_fillDefault, fillDefault_nodes]


/-! ## `algorithms.vrp_solver` and `algorithms._vrp_nearest_neighbor`

Orders are Python dicts; the fields read by the solver are `node`,
`weight` (default 0), `id` (default the node) and the time value
`order.get("time", order.get("time_window"))`. -/

/-- The value found under the `time`/`time_window` keys: a 2-tuple of
numbers, a number, or anything else (`other` covers tuples of other
lengths, strings, `None`, ...). -/
inductive TimeVal where
  | tuple2 (lo hi : ℚ)
  | num (t : ℚ)
  | other
  deriving DecidableEq, Repr

/-- An order record. -/
structure Order where
  node : ℕ
  wOpt : Option ℚ
  idOpt : Option ℕ
  timeOpt : Option TimeVal
  timeWindowOpt : Option TimeVal
  deriving DecidableEq, Repr

/-- `order.get("weight", 0)`. -/
def Order.w (o : Order) : ℚ := o.wOpt.getD 0

/-- `order.get("id", order["node"])`. -/
def Order.oid (o : Order) : ℕ := o.idOpt.getD o.node

/-- `order.get("time", order.get("time_window"))`. -/
def Order.tw (o : Order) : Option TimeVal := o.timeOpt.orElse (fun _ => o.timeWindowOpt)

/-- The time-window filter of `vrp_solver` (step 1): 2-tuples must be
contained in the global window, numbers must lie inside it, anything else
is accepted without restriction. -/
def orderAdmitted (gw : ℚ × ℚ) (o : Order) : Bool :=
  match o.tw with
  | some (.tuple2 lo hi) => decide (gw.1 ≤ lo) && decide (hi ≤ gw.2)
  | some (.num t) => decide (gw.1 ≤ t) && decide (t ≤ gw.2)
  | some .other => true
  | none => true

/-- A distance matrix, keyed by positions into `[depot] + order nodes`
(`float` entries, possibly `inf`). -/
def Matrix : Type := ℕ → ℕ → WithTop ℚ

/-- The linear scan locating a node's position in
`[depot_node] + [o["node"] for o in orders]` (first match). -/
def nodeIndex (depot : ℕ) (orders : List Order) (x : ℕ) : Option ℕ :=
  (depot :: orders.map Order.node).findIdx? (fun n => n == x)

/-- The candidate scan of the inner selection loop of
`_vrp_nearest_neighbor`: among the unrouted orders that fit the remaining
capacity, keep the first one at minimal matrix distance from the last route
node (`best_customer`/`best_distance`). -/
def vrpScan (dm : Matrix) (depot : ℕ) (orders : List Order) (cap capUsed : ℚ)
    (lastNode : ℕ) : List Order → Option Order × WithTop ℚ → Option Order × WithTop ℚ
  | [], acc => acc
  | o :: rest, acc =>
    if capUsed + o.w ≤ cap then
      match nodeIndex depot orders lastNode, nodeIndex depot orders o.node with
      | some li, some ci =>
        if dm li ci < acc.2 then
          vrpScan dm depot orders cap capUsed lastNode rest (some o, dm li ci)
        else vrpScan dm depot orders cap capUsed lastNode rest acc
      | _, _ => vrpScan dm depot orders cap capUsed lastNode rest acc
    else vrpScan dm depot orders cap capUsed lastNode rest acc

/-- The inner `while unrouted:` loop of `_vrp_nearest_neighbor`, building a
single route.  Returns (route, capacity used, remaining unrouted orders,
orders assigned to this route in selection order); the fuel
`unrouted.length` is enough because each step removes the selected order. -/
def buildRoute (dm : Matrix) (depot : ℕ) (orders : List Order) (cap : ℚ) :
    ℕ → List ℕ → ℚ → List Order → List Order → List ℕ × ℚ × List Order × List Order
  | 0, route, capUsed, unrouted, assigned => (route, capUsed, unrouted, assigned)
  | fuel + 1, route, capUsed, unrouted, assigned =>
    if unrouted.isEmpty then (route, capUsed, unrouted, assigned)
    else
      match (vrpScan dm depot orders cap capUsed (route.getLastD depot)
          unrouted (none, ⊤)).1 with
      | none => (route, capUsed, unrouted, assigned)
      | some best =>
        buildRoute dm depot orders cap fuel (route ++ [best.node])
          (capUsed + best.w) (unrouted.erase best) (assigned ++ [best])

/-- The outer `while unrouted:` loop of `_vrp_nearest_neighbor`.  The outer
loop of the source has no progress guarantee, so it carries explicit fuel;
`none` means the loop is still running after `fuel` rounds. -/
def vrpNNGo (dm : Matrix) (depot : ℕ) (orders : List Order) (cap : ℚ) :
    ℕ → List Order → List (List ℕ × List Order) →
    Option (List (List ℕ × List Order))
  | fuel, unrouted, acc =>
    if unrouted.isEmpty then some acc
    else
      match fuel with
      | 0 => none
      | fuel + 1 =>
        let r := buildRoute dm depot orders cap unrouted.length [depot] 0 unrouted []
        vrpNNGo dm depot orders cap fuel r.2.2.1 (acc ++ [(r.1 ++ [depot], r.2.2.2)])

/-- `_vrp_nearest_neighbor(graph, orders, depot_node, capacity,
distance_matrix)` (the `graph` argument is unused by the source).  Returns
the route list, or `none` if the loop has not finished within `fuel`
rounds. -/
def vrp_nearest_neighbor (dm : Matrix) (depot : ℕ) (orders : List Order)
    (cap : ℚ) (fuel : ℕ) : Option (List (List ℕ)) :=
  (vrpNNGo dm depot orders cap fuel orders []).map (fun l => l.map Prod.fst)

/-- The from/to index scan of `_calculate_route_distance` (later matches
overwrite earlier ones until both indices are set). -/
def scanFromTo (a b : ℕ) : List ℕ → ℕ → Option ℕ → Option ℕ → Option ℕ × Option ℕ
  | [], _, fi, ti => (fi, ti)
  | n :: rest, j, fi, ti =>
    let fi2 := if n = a then some j else fi
    let ti2 := if n = b then some j else ti
    if fi2.isSome ∧ ti2.isSome then (fi2, ti2)
    else scanFromTo a b rest (j + 1) fi2 ti2

/-- `_calculate_route_distance(route, distance_matrix, depot_node, orders)`. -/
def calcRouteDistance (dm : Matrix) (depot : ℕ) (orders : List Order) :
    List ℕ → WithTop ℚ
  | a :: b :: rest =>
    (match scanFromTo a b (depot :: orders.map Order.node) 0 none none with
      | (some fi, some ti) => dm fi ti
      | _ => 0) + calcRouteDistance dm depot orders (b :: rest)
  | _ => 0

/-- Ids of the valid orders whose node lies on the route
(`orders_served`). -/
def ordersServed (valid : List Order) (rt : List ℕ) : List ℕ :=
  (valid.filter (fun o => decide (o.node ∈ rt))).map Order.oid

/-- `capacity_used` of a route: total weight of the valid orders whose node
lies on the route. -/
def capacityUsed (valid : List Order) (rt : List ℕ) : ℚ :=
  ((valid.filter (fun o => decide (o.node ∈ rt))).map Order.w).sum

/-- A member of `route_details`. -/
structure RouteDetail where
  route : List ℕ
  distance : WithTop ℚ
  capacity_used : ℚ
  orders_served : ℕ
  orders : List ℕ
  deriving DecidableEq, Repr

/-- The dict returned by `vrp_solver` (`computation_time`, a wall-clock
reading, is omitted). -/
structure VrpResult where
  routes : List (List ℕ)
  total_distance : WithTop ℚ
  num_vehicles : ℕ
  unrouted_orders : List Order
  route_details : List RouteDetail
  distance_matrix_cache_hit : Bool
  deriving DecidableEq, Repr

/-- `_build_distance_matrix(graph, nodes)`: A* first, `dijkstra` as
fallback, then the straight-line estimate (the planar-projection float
value is the oracle `eu`); positions outside the node list are never read
by the solver. -/
def buildDistanceMatrix (g : Graph) (eu : ℕ → ℕ → ℚ) (nodes : List ℕ) : Matrix :=
  fun i j =>
    if i = j then 0
    else
      match nodes.get? i, nodes.get? j with
      | some ni, some nj =>
        match a_star g eu ni nj 10000 with
        | .ok r => (r.distance : WithTop ℚ)
        | .error _ =>
          match dijkstra g ni (some nj) 10000 with
          | .ok (.res r) => (r.distance : WithTop ℚ)
          | _ => (eu ni nj : WithTop ℚ)
      | _, _ => ⊤

/-- `vrp_solver(graph, orders, capacity, time_window, distance_matrix,
depot_node)`.  `fuel` bounds the rounds of the route-construction loop
(`none` = still looping); `eu` is the straight-line oracle used by A* and
the matrix fallback. -/
def vrp_solver (fuel : ℕ) (g : Graph) (eu : ℕ → ℕ → ℚ) (orders : List Order)
    (cap : ℚ) (gw : ℚ × ℚ) (dmOpt : Option Matrix) (depot : ℕ) :
    Option VrpResult :=
  let valid := orders.filter (orderAdmitted gw)
  if valid.isEmpty then
    some
      { routes := []
        total_distance := 0
        num_vehicles := 0
        unrouted_orders := orders
        route_details := []
        distance_matrix_cache_hit := dmOpt.isSome }
  else
    let dm := match dmOpt with
      | some m => m
      | none => buildDistanceMatrix g eu (depot :: valid.map Order.node)
    match vrpNNGo dm depot valid cap fuel valid [] with
    | none => none
    | some routesA =>
      let routes := routesA.map Prod.fst
      let details := routes.filterMap (fun rt =>
        if rt.length < 2 then none
        else some
          { route := rt
            distance := calcRouteDistance dm depot valid rt
            capacity_used := capacityUsed valid rt
            orders_served := (ordersServed valid rt).length
            orders := ordersServed valid rt : RouteDetail })
      some
        { routes := routes
          total_distance := (details.map RouteDetail.distance).sum
          num_vehicles := routes.length
          unrouted_orders := valid.filter (fun o => decide (o.node ∉ routes.flatten))
          route_details := details
          distance_matrix_cache_hit := dmOpt.isSome }


/-! ## `algorithms.precompute_distances` (C4)

The CSV store is modelled as an optional list of rows (`none` = the file
does not exist).  The `chunk_size` buffering only batches writes and does
not change the final contents, and the wall-clock/logging parameters are
irrelevant, so they are not part of the model.  The node set is the
explicitly supplied `nodes` argument (the `nodes=None` branch draws a fresh
random sample and is outside this deterministic model). -/

/-- `round(dist, 6)`, the rounding applied before a row is written. -/
def round6 (q : ℚ) : ℚ := (round (q * 1000000) : ℚ) / 1000000

/-- A row of `data/distances.csv`: `none` encodes the `"NA"` sentinel. -/
structure CacheRow where
  source : ℕ
  target : ℕ
  distance_meters : Option ℚ
  path_nodes : Option (List ℕ)
  deriving DecidableEq, Repr

/-- `_load_done_pairs`: the `(source, target)` pairs present in the store. -/
def load_done_pairs (store : Option (List CacheRow)) : List (ℕ × ℕ) :=
  match store with
  | none => []
  | some rows => rows.map (fun r => (r.source, r.target))

/-- The ordered pair list `[(u, v) for u in nodes_sel for v in nodes_sel
if u != v]`. -/
def allPairs (nodesSel : List ℕ) : List (ℕ × ℕ) :=
  nodesSel.flatMap (fun u =>
    nodesSel.filterMap (fun v => if u = v then none else some (u, v)))

/-- The distance/path computed for one pair: the in-run memo if it already
holds the pair, otherwise one A* call whose failure is absorbed into the
`"NA"` sentinel values. -/
def pairResult (g : Graph) (eu : ℕ → ℕ → ℚ) (maxIter : ℕ)
    (cache : List ((ℕ × ℕ) × (Option ℚ × Option (List ℕ)))) (u v : ℕ) :
    Option ℚ × Option (List ℕ) :=
  match cache.lookup (u, v) with
  | some dp => dp
  | none =>
    match a_star g eu u v maxIter with
    | .ok r => (some r.distance, some r.path)
    | .error _ => (none, none)

/-- The main loop of `precompute_distances`: skip pairs already in the
persisted cache, consult the in-run memo, otherwise run A* (any failure is
recorded as the `"NA"` sentinel), and append the row. -/
def precomputeGo (g : Graph) (eu : ℕ → ℕ → ℚ) (maxIter : ℕ)
    (done : List (ℕ × ℕ)) (resume : Bool) :
    List (ℕ × ℕ) → List ((ℕ × ℕ) × (Option ℚ × Option (List ℕ))) →
    List CacheRow → List CacheRow
  | [], _, acc => acc
  | (u, v) :: rest, cache, acc =>
    if resume ∧ (u, v) ∈ done then
      precomputeGo g eu maxIter done resume rest cache acc
    else
      precomputeGo g eu maxIter done resume rest
        (((u, v), pairResult g eu maxIter cache u v) :: cache)
        (acc ++ [⟨u, v, (pairResult g eu maxIter cache u v).1.map round6,
          (pairResult g eu maxIter cache u v).2⟩])

/-- `precompute_distances(graph, nodes, ..., out_path, resume, ...)`:
returns the number of newly written rows and the store contents after the
run. -/
def precompute_distances (g : Graph) (eu : ℕ → ℕ → ℚ) (nodesSel : List ℕ)
    (store : Option (List CacheRow)) (resume : Bool) (maxIter : ℕ) :
    ℕ × Option (List CacheRow) :=
  let done := if resume then load_done_pairs store else []
  let newRows := precomputeGo g eu maxIter done resume (allPairs nodesSel) [] []
  (newRows.length, some (store.getD [] ++ newRows))

theorem precomputeGo_acc_mem (g : Graph) (eu : ℕ → ℕ → ℚ) (maxIter : ℕ)
    (done : List (ℕ × ℕ)) (resume : Bool) :
    ∀ (ps : List (ℕ × ℕ)) cache acc (x : CacheRow), x ∈ acc →
    x ∈ precomputeGo g eu maxIter done resume ps cache acc
  | [], _, acc, x, hx => hx
  | (u, v) :: rest, cache, acc, x, hx => by
    rw [precomputeGo]
    by_cases hdone : (resume = true) ∧ (u, v) ∈ done
    · rw [if_pos hdone]
      exact precomputeGo_acc_mem g eu maxIter done resume rest cache acc x hx
    · rw [if_neg hdone]
      exact precomputeGo_acc_mem g eu maxIter done resume rest _ _ x
        (List.mem_append_left _ hx)

theorem precomputeGo_covers (g : Graph) (eu : ℕ → ℕ → ℚ) (maxIter : ℕ)
    (done : List (ℕ × ℕ)) :
    ∀ (ps : List (ℕ × ℕ)) cache acc (p : ℕ × ℕ), p ∈ ps →
    p ∈ done ∨ ∃ row ∈ precomputeGo g eu maxIter done true ps cache acc,
      (row.source, row.target) = p
  | [], _, _, p, hp => absurd hp (by simp)
  | (u, v) :: rest, cache, acc, p, hp => by
    rw [precomputeGo]
    by_cases hmem : (u, v) ∈ done
    · rw [if_pos ⟨rfl, hmem⟩]
      rcases List.mem_cons.mp hp with rfl | hp2
      · exact Or.inl hmem
      · exact precomputeGo_covers g eu maxIter done rest cache acc p hp2
    · rw [if_neg (fun hc => hmem hc.2)]
      rcases List.mem_cons.mp hp with rfl | hp2
      · refine Or.inr ⟨⟨u, v, (pairResult g eu maxIter cache u v).1.map round6,
          (pairResult g eu maxIter cache u v).2⟩, ?_, rfl⟩
        exact precomputeGo_acc_mem g eu maxIter done true rest _ _ _
          (List.mem_append_right _ (List.mem_singleton_self _))
      · exact precomputeGo_covers g eu maxIter done rest _ _ p hp2

theorem precomputeGo_all_done (g : Graph) (eu : ℕ → ℕ → ℚ) (maxIter : ℕ)
    (done : List (ℕ × ℕ)) :
    ∀ (ps : List (ℕ × ℕ)) cache acc, (∀ p ∈ ps, p ∈ done) →
    precomputeGo g eu maxIter done true ps cache acc = acc
  | [], _, _, _ => rfl
  | (u, v) :: rest, cache, acc, hall => by
    rw [precomputeGo]
    rw [if_pos ⟨rfl, hall _ (List.mem_cons_self _ _)⟩]
    exact precomputeGo_all_done g eu maxIter done rest cache acc
      (fun p hp => hall p (List.mem_cons_of_mem _ hp))

/-- C4: running `precompute_distances` twice with identical arguments and
`resume=true` is idempotent: the second run writes 0 new rows (and returns
0), and the persisted store -- hence its set of (source, target) pairs --
is exactly unchanged. -/
theorem precompute_distances_idempotent (g : Graph) (eu : ℕ → ℕ → ℚ) (nodesSel : List ℕ)
    (store0 : Option (List CacheRow)) (maxIter : ℕ) :
    (precompute_distances g eu nodesSel
      (precompute_distances g eu nodesSel store0 true maxIter).2 true maxIter).1 = 0 ∧
    (precompute_distances g eu nodesSel
      (precompute_distances g eu nodesSel store0 true maxIter).2 true maxIter).2 =
      (precompute_distances g eu nodesSel store0 true maxIter).2 := by
  have hdone2 : ∀ p ∈ allPairs nodesSel,
      p ∈ load_done_pairs (precompute_distances g eu nodesSel store0 true maxIter).2 := by
    intro p hp
    rcases precomputeGo_covers g eu maxIter
        (if true then load_done_pairs store0 else []) (allPairs nodesSel) [] [] p hp with
      hold | ⟨row, hrow, hkey⟩
    · simp only [if_true] at hold
      show p ∈ (store0.getD [] ++ _).map _
      rw [List.map_append]
      refine List.mem_append_left _ ?_
      match store0, hold with
      | some rows, hold => exact hold
    · show p ∈ (store0.getD [] ++ _).map _
      rw [List.map_append]
      refine List.mem_append_right _ ?_
      exact hkey ▸ List.mem_map_of_mem _ hrow
  have hempty : precomputeGo g eu maxIter
      (load_done_pairs (precompute_distances g eu nodesSel store0 true maxIter).2) true
      (allPairs nodesSel) [] [] = [] :=
    precomputeGo_all_done g eu maxIter _ (allPairs nodesSel) [] [] hdone2
  constructor
  · show (precomputeGo g eu maxIter (if true then _ else []) true (allPairs nodesSel) [] []).length = 0
    simp only [if_true]
    rw [hempty]
    rfl
  · show some (_ ++ precomputeGo g eu maxIter (if true then _ else []) true (allPairs nodesSel) [] []) = _
    simp only [if_true]
    rw [hempty, List.append_nil]
    rfl

/-! ## Lemmas on the VRP nearest-neighbour builder (C2, C5) -/

/-- When no unrouted order fits the remaining capacity, the candidate scan
returns its accumulator unchanged. -/
theorem vrpScan_skip (dm : Matrix) (depot : ℕ) (orders : List Order)
    (cap capUsed : ℚ) (lastNode : ℕ) :
    ∀ (l : List Order) (acc : Option Order × WithTop ℚ),
    (∀ o ∈ l, ¬ (capUsed + o.w ≤ cap)) →
    vrpScan dm depot orders cap capUsed lastNode l acc = acc
  | [], _, _ => rfl
  | o :: rest, acc, h => by
    rw [vrpScan]
    rw [if_neg (h o (List.mem_cons_self _ _))]
    exact vrpScan_skip dm depot orders cap capUsed lastNode rest acc
      (fun x hx => h x (List.mem_cons_of_mem _ hx))

/-- Any order the candidate scan selects came from the unrouted list and
fits the remaining capacity. -/
theorem vrpScan_sel (dm : Matrix) (depot : ℕ) (orders : List Order)
    (cap capUsed : ℚ) (lastNode : ℕ) (P : Order → Prop) :
    ∀ (l : List Order) (acc : Option Order × WithTop ℚ),
    (∀ a, acc.1 = some a → P a) →
    (∀ o ∈ l, capUsed + o.w ≤ cap → P o) →
    ∀ b, (vrpScan dm depot orders cap capUsed lastNode l acc).1 = some b → P b
  | [], _, hacc, _, b, hb => hacc b hb
  | o :: rest, acc, hacc, hl, b, hb => by
    have htail : ∀ x ∈ rest, capUsed + x.w ≤ cap → P x :=
      fun x hx => hl x (List.mem_cons_of_mem _ hx)
    rw [vrpScan] at hb
    by_cases hfit : capUsed + o.w ≤ cap
    · rw [if_pos hfit] at hb
      have hP : P o := hl o (List.mem_cons_self _ _) hfit
      split at hb
      · split at hb
        · refine vrpScan_sel dm depot orders cap capUsed lastNode P rest _ ?_ htail b hb
          intro a ha
          exact Option.some_inj.mp ha ▸ hP
        · exact vrpScan_sel dm depot orders cap capUsed lastNode P rest acc hacc htail b hb
      · exact vrpScan_sel dm depot orders cap capUsed lastNode P rest acc hacc htail b hb
    · rw [if_neg hfit] at hb
      exact vrpScan_sel dm depot orders cap capUsed lastNode P rest acc hacc htail b hb

/-- With a single unrouted order that alone exceeds the capacity, one inner
round of the builder makes no progress at all. -/
theorem buildRoute_stuck (dm : Matrix) (depot : ℕ) (orders : List Order)
    (cap : ℚ) (o : Order) (hcap : cap < o.w) :
    ∀ (fuel : ℕ) (route : List ℕ) (assigned : List Order),
    buildRoute dm depot orders cap fuel route 0 [o] assigned =
      (route, 0, [o], assigned)
  | 0, _, _ => rfl
  | fuel + 1, route, assigned => by
    rw [buildRoute]
    rw [if_neg (by simp)]
    rw [vrpScan_skip dm depot orders cap 0 (route.getLastD depot) [o] (none, ⊤)
      (by intro x hx h
          rw [List.mem_singleton] at hx
          rw [hx, zero_add] at h
          exact absurd h (not_le.mpr hcap))]

/-- The outer loop of `_vrp_nearest_neighbor` never finishes when the only
unrouted order is heavier than the vehicle capacity: every round re-opens an
empty route and puts the order back. -/
theorem vrpNNGo_diverge (dm : Matrix) (depot : ℕ) (orders : List Order)
    (cap : ℚ) (o : Order) (hcap : cap < o.w) :
    ∀ (fuel : ℕ) (acc : List (List ℕ × List Order)),
    vrpNNGo dm depot orders cap fuel [o] acc = none
  | 0, acc => by
    rw [vrpNNGo.eq_def]
    try simp only []
    rw [if_neg (by simp)]
  | fuel + 1, acc => by
    rw [vrpNNGo.eq_def]
    try simp only []
    rw [if_neg (by simp)]
    try simp only []
    rw [buildRoute_stuck dm depot orders cap o hcap]
    exact vrpNNGo_diverge dm depot orders cap o hcap fuel _

/-- The selections of a single inner round: the used capacity stays below
the limit at every step, and the returned capacity is the accumulated
weight of the newly assigned orders. -/
theorem buildRoute_cap (dm : Matrix) (depot : ℕ) (orders : List Order) (cap : ℚ) :
    ∀ (fuel : ℕ) (route : List ℕ) (capUsed : ℚ) (unrouted assigned : List Order),
    capUsed ≤ cap →
    (buildRoute dm depot orders cap fuel route capUsed unrouted assigned).2.1 ≤ cap ∧
    ∃ extra : List Order,
      (buildRoute dm depot orders cap fuel route capUsed unrouted assigned).2.2.2 =
        assigned ++ extra ∧
      (buildRoute dm depot orders cap fuel route capUsed unrouted assigned).2.1 =
        capUsed + ((extra.map Order.w).sum) ∧
      (∀ pre suf : List Order, extra = pre ++ suf →
        capUsed + ((pre.map Order.w).sum) ≤ cap)
  | 0, route, capUsed, unrouted, assigned, hle => by
    refine ⟨hle, [], by simp [buildRoute], by simp [buildRoute], ?_⟩
    intro pre suf h
    obtain ⟨rfl, rfl⟩ := List.append_eq_nil.mp h.symm
    simpa using hle
  | fuel + 1, route, capUsed, unrouted, assigned, hle => by
    rw [buildRoute]
    by_cases hemp : unrouted.isEmpty = true
    · rw [if_pos hemp]
      refine ⟨hle, [], by simp, by simp, ?_⟩
      intro pre suf h
      obtain ⟨rfl, rfl⟩ := List.append_eq_nil.mp h.symm
      simpa using hle
    · rw [if_neg hemp]
      match hsel : (vrpScan dm depot orders cap capUsed (route.getLastD depot)
          unrouted (none, ⊤)).1 with
      | none =>
        refine ⟨hle, [], by simp, by simp, ?_⟩
        intro pre suf h
        obtain ⟨rfl, rfl⟩ := List.append_eq_nil.mp h.symm
        simpa using hle
      | some best =>
        have hfit : capUsed + best.w ≤ cap :=
          vrpScan_sel dm depot orders cap capUsed (route.getLastD depot)
            (fun b => capUsed + b.w ≤ cap) unrouted (none, ⊤)
            (fun a ha => Option.noConfusion ha) (fun _ _ hf => hf) best hsel
        obtain ⟨hb, extra, he1, he2, he3⟩ :=
          buildRoute_cap dm depot orders cap fuel (route ++ [best.node])
            (capUsed + best.w) (unrouted.erase best) (assigned ++ [best]) hfit
        refine ⟨hb, best :: extra, ?_, ?_, ?_⟩
        · rw [he1]
          simp
        · rw [he2, List.map_cons, List.sum_cons]
          ring
        · intro pre suf h
          match pre, h with
          | [], _ => simpa using hle
          | p :: pre2, h =>
            have hp : p = best ∧ extra = pre2 ++ suf := by
              have h2 := h
              rw [List.cons_append] at h2
              exact ⟨(List.cons.injEq _ _ _ _ ▸ h2).1.symm,
                (List.cons.injEq _ _ _ _ ▸ h2).2⟩
            have h3 := he3 pre2 suf hp.2
            rw [hp.1, List.map_cons, List.sum_cons]
            linarith

/-- Every route list the outer loop returns obeys the capacity invariant:
along the order of selection, each prefix of a route load is at most the
capacity. -/
theorem vrpNNGo_cap (dm : Matrix) (depot : ℕ) (orders : List Order) (cap : ℚ)
    (h0 : 0 ≤ cap) :
    ∀ (fuel : ℕ) (unrouted : List Order) (acc res : List (List ℕ × List Order)),
    (∀ p ∈ acc, ∀ pre suf : List Order, p.2 = pre ++ suf →
      ((pre.map Order.w).sum) ≤ cap) →
    vrpNNGo dm depot orders cap fuel unrouted acc = some res →
    ∀ p ∈ res, ∀ pre suf : List Order, p.2 = pre ++ suf →
      ((pre.map Order.w).sum) ≤ cap
  | 0, unrouted, acc, res, hacc, hrun => by
    rw [vrpNNGo.eq_def] at hrun
    try simp only [] at hrun
    by_cases hemp : unrouted.isEmpty = true
    · rw [if_pos hemp] at hrun
      injection hrun with h
      subst h
      exact hacc
    · rw [if_neg hemp] at hrun
      exact absurd hrun (by simp)
  | fuel + 1, unrouted, acc, res, hacc, hrun => by
    rw [vrpNNGo.eq_def] at hrun
    try simp only [] at hrun
    by_cases hemp : unrouted.isEmpty = true
    · rw [if_pos hemp] at hrun
      injection hrun with h
      subst h
      exact hacc
    · rw [if_neg hemp] at hrun
      try simp only [] at hrun
      refine vrpNNGo_cap dm depot orders cap h0 fuel _ _ res ?_ hrun
      intro p hp pre suf hps
      rcases List.mem_append.mp hp with hp1 | hp2
      · exact hacc p hp1 pre suf hps
      · obtain ⟨_, extra, he1, _, he3⟩ :=
          buildRoute_cap dm depot orders cap unrouted.length [depot] 0 unrouted [] h0
        have hp3 : p.2 =
            (buildRoute dm depot orders cap unrouted.length [depot] 0 unrouted []).2.2.2 := by
          rw [List.mem_singleton.mp hp2]
        rw [hp3, he1, List.nil_append] at hps
        simpa using he3 pre suf hps

/-! ## Concrete inputs for the scenario claims -/

/-- The edge weights of the spec scenario's 5-node line. -/
def lineW : ℕ → ℚ :=
  fun u => if u = 0 then 1 else if u = 1 then 2 else if u = 2 then 3/2 else 5/2

/-- The 5-node line A-B-C-D-E (as 0..4) with weights 1, 2, 1.5, 2.5. -/
def lineG : Graph where
  nodes := [0, 1, 2, 3, 4]
  adj := fun u => if u < 4 then [u + 1] else []
  wAttr := fun u v => if u < 4 ∧ v = u + 1 then some (lineW u) else none

/-- A graph with one node and no edge. -/
def gSingle : Graph := ⟨[0], fun _ => [], fun _ _ => none⟩

/-- The empty graph (the VRP scenarios read only the distance matrix). -/
def gEmpty : Graph := ⟨[], fun _ => [], fun _ _ => none⟩

/-- A trivial straight-line oracle. -/
def eu0 : ℕ → ℕ → ℚ := fun _ _ => 0

/-- A distance matrix that is 0 everywhere. -/
def dm0 : Matrix := fun _ _ => 0

/-- An order of weight 150, heavier than a capacity of 100. -/
def o150 : Order := ⟨5, some 150, none, none, none⟩

/-- An order of weight 60 at node 1. -/
def o60 : Order := ⟨1, some 60, none, none, none⟩

/-- An order of weight 50 at node 2. -/
def o50 : Order := ⟨2, some 50, none, none, none⟩

/-- An order whose scalar time 50 lies outside the global window (0, 10). -/
def oBad : Order := ⟨3, some 1, none, some (.num 50), none⟩

/-- An order with no time field. -/
def oGood : Order := ⟨1, some 1, none, none, none⟩

/-- The queue after inserting (C=300, prio 3), (A=100, prio 1),
(B=200, prio 2). -/
def qCAB : PriorityQueue :=
  ((PriorityQueue.mk0.insert 300 3).insert 100 1).insert 200 2

instance : Inhabited DijResult := ⟨⟨0, [], fun _ => ⊤, fun _ => none, 0, 0⟩⟩

instance : Inhabited AStarResult :=
  ⟨⟨0, [], fun _ => ⊤, fun _ => ⊤, fun _ => none, 0, 0, 0⟩⟩

/-- The record `dijkstra(lineG, A, E)` returns. -/
def rLine : DijResult :=
  match dijkstra lineG 0 (some 4) 100 with | .ok (.res r) => r | _ => default

/-- The record `a_star(lineG, A, E)` returns. -/
def raLine : AStarResult :=
  match a_star lineG eu0 0 4 100 with | .ok r => r | _ => default

/-- The route list the builder returns for orders of weight 60 and 50 under
capacity 100: two routes. -/
def resC5 : List (List ℕ × List Order) := [([0, 1, 0], [o60]), ([0, 2, 0], [o50])]

/-- The solver result for `[oBad, oGood]`: one route serving `oGood`;
`oBad` appears nowhere. -/
def resC3 : VrpResult :=
  { routes := [[0, 1, 0]]
    total_distance := 0
    num_vehicles := 1
    unrouted_orders := []
    route_details := [{ route := [0, 1, 0], distance := 0, capacity_used := 1, orders_served := 1, orders := [1] }]
    distance_matrix_cache_hit := true }

/-- `lineG` has non-negative edge weights. -/
theorem lineG_nonneg : NonnegW lineG := by
  intro u v _
  show (0 : ℚ) ≤ (if u < 4 ∧ v = u + 1 then some (lineW u) else none).getD 1
  split
  · show (0 : ℚ) ≤ lineW u
    simp only [lineW]
    split
    · norm_num
    split
    · norm_num
    split
    · norm_num
    · norm_num
  · norm_num

/-- Path reconstruction never reports the iteration-limit error. -/
theorem reconstruct_path_no_iterLimit (pred : ℕ → Option ℕ) (n s e : ℕ) :
    reconstruct_path pred n s e ≠ .error .iterLimit := by
  rw [reconstruct_path]
  try simp only []
  split
  · intro h
    injection h with h2
    exact AlgError.noConfusion h2
  · split
    · intro h
      exact Except.noConfusion h
    · intro h
      injection h with h2
      exact AlgError.noConfusion h2

/-! ## The claims -/

/-- C1: on every non-negative-weight graph, a successful
`dijkstra(start, end)` call returns the true single-source shortest-path
distance (the rational float model is exact, so the 1e-9 tolerance is met
with equality); and on the 5-node line A-B-C-D-E with weights
[1, 2, 1.5, 2.5], `dijkstra(A, E)` returns distance 7.0 and path
[A, B, C, D, E]. -/
theorem dijkstra_shortest_distance_with_line_example (g : Graph)
    (s e maxIter : ℕ) (r : DijResult) (hnn : NonnegW g)
    (hok : dijkstra g s (some e) maxIter = .ok (.res r)) :
    IsShortestDist g s e r.distance ∧
    (dijkstra lineG 0 (some 4) 100 = .ok (.res rLine) ∧
      rLine.distance = 7 ∧ rLine.path = [0, 1, 2, 3, 4]) :=
  ⟨dijkstra_distance_shortest hnn hok, by with_unfolding_all rfl,
    by with_unfolding_all rfl, by with_unfolding_all rfl⟩

theorem dijkstra_shortest_distance_line_witness :
    IsShortestDist lineG 0 4 rLine.distance ∧
    (dijkstra lineG 0 (some 4) 100 = .ok (.res rLine) ∧
      rLine.distance = 7 ∧ rLine.path = [0, 1, 2, 3, 4]) :=
  dijkstra_shortest_distance_with_line_example lineG 0 4 100 rLine lineG_nonneg
    (by with_unfolding_all rfl)

/-- C2: refuted as stated -- the route-construction loop does NOT terminate
for every input.  When a single admitted order is heavier than the vehicle
capacity, no round makes progress, and the loop runs forever: for every
iteration budget `fuel`, the solver is still looping (`none`). -/
theorem vrp_overweight_order_never_terminates (g : Graph) (eu : ℕ → ℕ → ℚ)
    (o : Order) (cap : ℚ) (gw : ℚ × ℚ) (dm : Matrix) (depot : ℕ) (fuel : ℕ)
    (hadm : orderAdmitted gw o = true) (hcap : cap < o.w) :
    vrp_solver fuel g eu [o] cap gw (some dm) depot = none := by
  rw [vrp_solver.eq_def]
  try simp only []
  have hval : List.filter (orderAdmitted gw) [o] = [o] := by
    simp [List.filter, hadm]
  rw [hval]
  rw [if_neg (by simp)]
  rw [vrpNNGo_diverge dm depot [o] cap o hcap fuel []]

theorem vrp_overweight_order_never_terminates_witness :
    orderAdmitted (0, 100) o150 = true ∧ (100 : ℚ) < o150.w ∧
    vrp_solver 7 gEmpty eu0 [o150] 100 (0, 100) (some dm0) 0 = none :=
  ⟨by with_unfolding_all decide, by with_unfolding_all decide,
    vrp_overweight_order_never_terminates gEmpty eu0 o150 100 (0, 100) dm0 0 7
      (by with_unfolding_all decide) (by with_unfolding_all decide)⟩

/-- C3: the partition property holds only for the orders admitted by the
time-window filter: each admitted order is in `unrouted_orders` exactly when
its node lies on no returned route.  Orders rejected by the filter are
omitted from the result entirely (see the counterexample). -/
theorem vrp_admitted_order_partition (fuel : ℕ) (g : Graph) (eu : ℕ → ℕ → ℚ)
    (orders : List Order) (cap : ℚ) (gw : ℚ × ℚ) (dmOpt : Option Matrix)
    (depot : ℕ) (res : VrpResult)
    (hne : (orders.filter (orderAdmitted gw)).isEmpty = false)
    (hrun : vrp_solver fuel g eu orders cap gw dmOpt depot = some res) :
    res.unrouted_orders =
      (orders.filter (orderAdmitted gw)).filter
        (fun o => decide (o.node ∉ res.routes.flatten)) ∧
    ∀ o ∈ orders, orderAdmitted gw o = true →
      (o ∈ res.unrouted_orders ↔ o.node ∉ res.routes.flatten) := by
  rw [vrp_solver.eq_def] at hrun
  try simp only [] at hrun
  rw [if_neg (by simp [hne])] at hrun
  split at hrun
  · exact absurd hrun (by simp)
  · injection hrun with h
    subst h
    refine ⟨rfl, ?_⟩
    intro o ho hadm
    have hov : o ∈ orders.filter (orderAdmitted gw) := List.mem_filter.mpr ⟨ho, hadm⟩
    constructor
    · intro hin
      have hin2 := List.mem_filter.mp hin
      simpa using hin2.2
    · intro hout
      refine List.mem_filter.mpr ⟨hov, ?_⟩
      simpa using hout

/-- An order rejected by the time-window filter is neither served by a route
nor listed in `unrouted_orders`: it vanishes from the result. -/
theorem vrp_filtered_order_omitted :
    vrp_solver 2 gEmpty eu0 [oBad, oGood] 100 (0, 10) (some dm0) 0 = some resC3 ∧
    oBad ∈ [oBad, oGood] ∧ orderAdmitted (0, 10) oBad = false ∧
    oBad ∉ resC3.unrouted_orders ∧ (∀ rt ∈ resC3.routes, oBad.node ∉ rt) := by
  refine ⟨by with_unfolding_all decide, by with_unfolding_all decide,
    by with_unfolding_all decide, by with_unfolding_all decide,
    by with_unfolding_all decide⟩

theorem vrp_admitted_order_partition_witness :
    resC3.unrouted_orders =
      (([oBad, oGood].filter (orderAdmitted (0, 10)))).filter
        (fun o => decide (o.node ∉ resC3.routes.flatten)) ∧
    ∀ o ∈ [oBad, oGood], orderAdmitted (0, 10) o = true →
      (o ∈ resC3.unrouted_orders ↔ o.node ∉ resC3.routes.flatten) :=
  vrp_admitted_order_partition 2 gEmpty eu0 [oBad, oGood] 100 (0, 10)
    (some dm0) 0 resC3 (by with_unfolding_all decide) (by with_unfolding_all decide)

/-- C5: for every route the nearest-neighbour builder returns, the
accumulated weight never exceeds the vehicle capacity at any point of the
construction: every prefix (in selection order) of the orders assigned to a
route weighs at most `capacity`; in particular the whole route does. -/
theorem vrp_route_capacity_bound (dm : Matrix) (depot : ℕ) (orders : List Order)
    (cap : ℚ) (fuel : ℕ) (res : List (List ℕ × List Order))
    (h0 : 0 ≤ cap)
    (hrun : vrpNNGo dm depot orders cap fuel orders [] = some res) :
    ∀ p ∈ res, ∀ pre suf : List Order, p.2 = pre ++ suf →
      ((pre.map Order.w).sum) ≤ cap :=
  vrpNNGo_cap dm depot orders cap h0 fuel orders [] res
    (fun p hp => absurd hp (List.not_mem_nil p)) hrun

theorem vrp_route_capacity_bound_witness :
    vrpNNGo dm0 0 [o60, o50] 100 2 [o60, o50] [] = some resC5 ∧
    ∀ p ∈ resC5, ∀ pre suf : List Order, p.2 = pre ++ suf →
      ((pre.map Order.w).sum) ≤ 100 :=
  ⟨by with_unfolding_all decide,
    vrp_route_capacity_bound dm0 0 [o60, o50] 100 2 resC5 (by norm_num)
      (by with_unfolding_all decide)⟩

/-- C6: corrected loop-exit semantics.  The loop indeed stops only because
the queue empties, `end` is extracted, or the iteration budget runs out; but
the call raises the iteration-limit error exactly when the final iteration
count has REACHED `max_iterations` -- even when `end` was extracted on the
last allowed iteration (see the counterexample), so reaching the destination
within `max_iterations` iterations does not guarantee a normal result. -/
theorem dijkstra_iteration_limit_iff (g : Graph) (s e maxIter : ℕ)
    (hs : s ∈ g.nodes) (he : e ∈ g.nodes) :
    (dijkstra g s (some e) maxIter = .error .iterLimit ↔
      maxIter ≤ (dloopFinal g s (some e) maxIter).iters) ∧
    ((dloopFinal g s (some e) maxIter).iters < maxIter →
      (dloopFinal g s (some e) maxIter).pq.heap = [] ∨
        e ∈ (dloopFinal g s (some e) maxIter).visited) := by
  have hiters := dloop_iters g (some e) maxIter (dijkstraInit s)
  constructor
  · rw [dijkstra.eq_def]
    rw [if_neg (by simpa using hs)]
    simp only []
    rw [if_neg (by simpa using he)]
    by_cases hle : maxIter ≤ (dloopFinal g s (some e) maxIter).iters
    · rw [if_pos hle]
      exact ⟨fun _ => hle, fun _ => rfl⟩
    · rw [if_neg hle]
      refine ⟨fun h => absurd ?_ hle, fun h => absurd h hle⟩
      exfalso
      revert h
      split
      · intro h
        injection h with h2
        exact AlgError.noConfusion h2
      · split
        · rename_i er heq
          intro h
          injection h with h2
          rw [h2] at heq
          exact reconstruct_path_no_iterLimit _ _ _ _ heq
        · intro h
          exact Except.noConfusion h
  · intro hlt
    have hlt2 : (dloop g (some e) maxIter (dijkstraInit s)).iters < maxIter := hlt
    have h00 : (dijkstraInit s).iters = 0 := rfl
    have h2 := hiters.2 (by omega)
    rcases h2 with h | ⟨e2, he2, hv⟩
    · exact Or.inl h
    · refine Or.inr ?_
      injection he2 with h3
      subst h3
      exact hv

/-- With `max_iterations = 1` on a single-node graph, `dijkstra(0, 0)`
extracts the destination on the one allowed iteration -- the loop exits with
`end` visited and the iteration count exactly at the limit -- yet the call
raises the iteration-limit error instead of returning the trivial path. -/
theorem dijkstra_iteration_limit_offbyone :
    dijkstra gSingle 0 (some 0) 1 = .error .iterLimit ∧
    (dloopFinal gSingle 0 (some 0) 1).visited = [0] ∧
    (dloopFinal gSingle 0 (some 0) 1).iters = 1 :=
  ⟨rfl, rfl, rfl⟩

theorem dijkstra_iteration_limit_iff_witness :
    (dijkstra gSingle 0 (some 0) 5 = .error .iterLimit ↔
      5 ≤ (dloopFinal gSingle 0 (some 0) 5).iters) ∧
    ((dloopFinal gSingle 0 (some 0) 5).iters < 5 →
      (dloopFinal gSingle 0 (some 0) 5).pq.heap = [] ∨
        0 ∈ (dloopFinal gSingle 0 (some 0) 5).visited) :=
  dijkstra_iteration_limit_iff gSingle 0 0 5 (by decide) (by decide)

/-- C7: every successful `dijkstra` or `a_star` call with an end node
returns a path that starts at `start`, ends at `end`, and whose consecutive
pairs are directed edges of the graph. -/
theorem returned_paths_are_graph_walks (g : Graph) (eu : ℕ → ℕ → ℚ)
    (s e m s2 e2 m2 : ℕ) (r : DijResult) (ra : AStarResult)
    (hd : dijkstra g s (some e) m = .ok (.res r))
    (ha : a_star g eu s2 e2 m2 = .ok ra) :
    (r.path.head? = some s ∧ r.path.getLast? = some e ∧
      List.Chain' (fun a b => b ∈ g.adj a) r.path) ∧
    (ra.path.head? = some s2 ∧ ra.path.getLast? = some e2 ∧
      List.Chain' (fun a b => b ∈ g.adj a) ra.path) :=
  ⟨dijkstra_path_valid hd, a_star_path_valid ha⟩

theorem returned_paths_are_graph_walks_witness :
    ((rLine.path.head? = some 0 ∧ rLine.path.getLast? = some 4 ∧
      List.Chain' (fun a b => b ∈ lineG.adj a) rLine.path) ∧
    (raLine.path.head? = some 0 ∧ raLine.path.getLast? = some 4 ∧
      List.Chain' (fun a b => b ∈ lineG.adj a) raLine.path)) :=
  returned_paths_are_graph_walks lineG eu0 0 4 100 0 4 100 rLine raLine
    (by with_unfolding_all rfl) (by with_unfolding_all rfl)

/-- C8: on every reachable non-empty queue, `extract_min` removes and
returns a value of minimal priority (the rest of the entries are kept, as a
permutation of the remainder); after inserting (C, 3), (A, 1), (B, 2) the
extraction order is [A, B, C]; and `extract_min` on an empty queue fails
with the empty-queue error. -/
theorem priority_queue_extract_min_minimal (q : PriorityQueue)
    (hq : PriorityQueue.Reachable q) (hne : q.heap ≠ []) :
    (∃ e q2, q.extract_min = .ok (e.node, q2) ∧ e ∈ q.heap ∧
      (∀ x ∈ q.heap, e ≤ x) ∧ List.Perm q2.heap q.heap.tail) ∧
    (∃ q1 q2 q3 : PriorityQueue,
      qCAB.extract_min = .ok (100, q1) ∧ q1.extract_min = .ok (200, q2) ∧
      q2.extract_min = .ok (300, q3) ∧ q3.heap = []) ∧
    PriorityQueue.mk0.extract_min = .error .emptyQueue := by
  refine ⟨?_, ?_, rfl⟩
  · obtain ⟨e, q2, h1, h2, h3, h4, _, _⟩ :=
      PriorityQueue.extract_min_spec (PriorityQueue.Reachable.heapProp hq) hne
    exact ⟨e, q2, h1, h2, h3, h4⟩
  · exact ⟨⟨[⟨2, 200⟩, ⟨3, 300⟩]⟩, ⟨[⟨3, 300⟩]⟩, ⟨[]⟩, rfl, rfl, rfl, rfl⟩

theorem priority_queue_extract_min_minimal_witness :
    ((∃ e q2, qCAB.extract_min = .ok (e.node, q2) ∧ e ∈ qCAB.heap ∧
      (∀ x ∈ qCAB.heap, e ≤ x) ∧ List.Perm q2.heap qCAB.heap.tail) ∧
    (∃ q1 q2 q3 : PriorityQueue,
      qCAB.extract_min = .ok (100, q1) ∧ q1.extract_min = .ok (200, q2) ∧
      q2.extract_min = .ok (300, q3) ∧ q3.heap = []) ∧
    PriorityQueue.mk0.extract_min = .error .emptyQueue) :=
  priority_queue_extract_min_minimal qCAB
    (PriorityQueue.Reachable.insert 100 1
      (PriorityQueue.Reachable.insert 300 3 PriorityQueue.Reachable.mk0)
      |> PriorityQueue.Reachable.insert 200 2)
    (by decide)

/-- C9: an edge whose attribute map has no weight entry is read as weight
1.0, and replacing every such missing attribute by an explicit 1.0
(`fillDefault`) changes neither `dijkstra` nor `a_star`. -/
theorem missing_weight_defaults_to_one (g : Graph) (eu : ℕ → ℕ → ℚ)
    (s : ℕ) (endv : Option ℕ) (m s2 e2 m2 u v : ℕ) :
    (g.wAttr u v = none → edgeWeight g u v = 1) ∧
    dijkstra (fillDefault g) s endv m = dijkstra g s endv m ∧
    a_star (fillDefault g) eu s2 e2 m2 = a_star g eu s2 e2 m2 :=
  ⟨fun h => by rw [edgeWeight, h]; rfl, dijkstra_fillDefault g s endv m,
    a_star_fillDefault g eu s2 e2 m2⟩

/-- C10: an order with no time field, or one that is neither a 2-tuple nor
a number, is admitted unconditionally; a 2-tuple passes exactly under
containment in the global window; a numeric time passes exactly when the
point lies inside the global window. -/
theorem time_window_filter_semantics (gw : ℚ × ℚ) (orders : List Order)
    (o : Order) :
    o ∈ orders.filter (orderAdmitted gw) ↔
      o ∈ orders ∧
      ((o.tw = none ∨ o.tw = some TimeVal.other) ∨
       (∃ lo hi, o.tw = some (TimeVal.tuple2 lo hi) ∧ gw.1 ≤ lo ∧ hi ≤ gw.2) ∨
       (∃ t, o.tw = some (TimeVal.num t) ∧ gw.1 ≤ t ∧ t ≤ gw.2)) := by
  rw [List.mem_filter]
  refine and_congr_right (fun _ => ?_)
  rw [orderAdmitted]
  match htw : o.tw with
  | none => simp
  | some .other => simp
  | some (.tuple2 lo hi) =>
    simp only [Bool.and_eq_true, decide_eq_true_eq, Option.some.injEq, reduceCtorEq,
      TimeVal.tuple2.injEq, false_or, or_false]
    constructor
    · intro h
      exact Or.inl ⟨lo, hi, ⟨rfl, rfl⟩, h⟩
    · rintro (⟨lo2, hi2, ⟨rfl, rfl⟩, h⟩ | ⟨t, hf, _⟩)
      · exact h
      · exact hf.elim
  | some (.num t) => simp


end OptiRota
